import Mathlib

set_option maxRecDepth 40000

/-!
Verification development for the two-tier caching layer (`CacheManager` in
`src/utils/retry.ts`) of the leetcode-practice-tracker repository.

The cache manager is embedded shallowly:

* JS `Map<string, CacheEntry>` and JSON-object metadata documents become
  insertion-ordered association lists with unique keys (`mapGet`, `mapSet`,
  `mapDelete` mirror `Map.get` / `Map.set` / `Map.delete`; `Map.set` on an
  existing key keeps its position, as in JS).
* The file system is explicit state: one parsed entry per `(namespace, key)`
  pair plus one metadata document per namespace.  `fs` calls never fail in the
  model except where the source itself branches on failure (a metadata
  document can be `absent` or `corrupt`, matching the `loadMetadata`
  try/catch); entry files written by `set` are read back structurally, since
  `JSON.parse (JSON.stringify e)` restores an entry of the payload domain
  modelled here unchanged.
* `Date.now()` becomes an explicit `now : Int` argument of each operation
  (each public operation reads the clock once; the source's repeated
  `Date.now()` calls inside one synchronous body denote the same instant).
* Payloads for the lifecycle operations are the inductive `Json` type
  (exactly the acyclic JSON-representable values).  Cyclic object graphs,
  needed for the cycle-safety claim about `safeStringify` versus the bare
  `JSON.stringify(entry, null, 2)` in `set`, are modelled separately by an
  explicit heap of objects (`JHeap`) with reference values.
* `logger` calls are pure logging and have no effect on the modelled state.
-/

/-! ## Association-list maps (model of JS `Map` and of JSON objects) -/

/-- Model of `Map.get` / object indexing: the value at the first (and, under
the unique-key invariant, only) occurrence of the key. -/
def mapGet {κ α : Type} [DecidableEq κ] (k : κ) : List (κ × α) → Option α
  | [] => none
  | (k1, v) :: rest => if k1 = k then some v else mapGet k rest

/-- Model of `Map.set` / object assignment: overwrite in place if the key is
present (JS `Map.set` keeps the original insertion position), else append. -/
def mapSet {κ α : Type} [DecidableEq κ] (k : κ) (v : α) : List (κ × α) → List (κ × α)
  | [] => [(k, v)]
  | (k1, v1) :: rest => if k1 = k then (k, v) :: rest else (k1, v1) :: mapSet k v rest

/-- Model of `Map.delete` / `delete obj[k]`: remove the first occurrence of
the key (the only one, under the unique-key invariant). -/
def mapDelete {κ α : Type} [DecidableEq κ] (k : κ) : List (κ × α) → List (κ × α)
  | [] => []
  | (k1, v1) :: rest => if k1 = k then rest else (k1, v1) :: mapDelete k rest

/-! ## Byte sizes and digests -/

/-- Number of bytes of one character in UTF-8 (model of what
`Buffer.byteLength(s, "utf8")` counts per code point). -/
def utf8Bytes (c : Char) : Nat :=
  if c.toNat < 0x80 then 1
  else if c.toNat < 0x800 then 2
  else if c.toNat < 0x10000 then 3
  else 4

/-- Model of `Buffer.byteLength(s, "utf8")`. -/
def byteLength (s : String) : Nat :=
  s.data.foldl (fun n c => n + utf8Bytes c) 0

/-- Lower-case hexadecimal digit. -/
def hexDigit (n : Nat) : Char :=
  if n < 10 then Char.ofNat (48 + n) else Char.ofNat (87 + n % 16)

/-- Model of node `crypto`'s `createHash("md5").update(s).digest("hex")`.
The cache depends only on the digest being a deterministic hex string that
distinguishes distinct inputs in practice; an injective byte-wise hex
encoding is a faithful stand-in for those properties. -/
def md5hex (s : String) : String :=
  String.mk (s.data.foldr
    (fun c acc => hexDigit (c.toNat / 16 % 16) :: hexDigit (c.toNat % 16) :: acc) [])

/-! ## JSON payloads (acyclic values handed to `set`) -/

/-- Acyclic JSON-representable payloads: exactly the value domain the
round-trip and lifecycle claims quantify over.  Numbers are integral
(the repository caches question records whose numeric fields are integers;
no claim depends on non-integral numbers). -/
inductive Json : Type
  | null : Json
  | bool (b : Bool) : Json
  | num (n : Int) : Json
  | str (s : String) : Json
  | arr (items : List Json) : Json
  | obj (fields : List (String × Json)) : Json

/-- JSON string quoting as performed by `JSON.stringify` on a string value
(ASCII control characters escaped, quote and backslash escaped). -/
def jsonQuoteChar (c : Char) : String :=
  if c = '"' then "\\\""
  else if c = '\\' then "\\\\"
  else if c = '\n' then "\\n"
  else if c = '\r' then "\\r"
  else if c = '\t' then "\\t"
  else if c.toNat = 8 then "\\b"
  else if c.toNat = 12 then "\\f"
  else if c.toNat < 32 then
    "\\u00" ++ String.mk [hexDigit (c.toNat / 16), hexDigit (c.toNat % 16)]
  else String.mk [c]

/-- Model of `JSON.stringify` applied to a string. -/
def jsonQuote (s : String) : String :=
  "\"" ++ s.data.foldr (fun c acc => jsonQuoteChar c ++ acc) "" ++ "\""

/-- Join a list of strings with a separator (model of `Array.join`). -/
def joinSep (sep : String) : List String → String
  | [] => ""
  | [x] => x
  | x :: rest => x ++ sep ++ joinSep sep rest

/-- Two spaces per indentation level: the indentation `JSON.stringify(v, null, 2)`
uses. -/
def indentStr (depth : Nat) : String :=
  String.mk (List.replicate (2 * depth) ' ')

mutual

/-- Model of `JSON.stringify(v, null, 2)` (the serialization `set` uses to
produce the file content whose UTF-8 byte length becomes the entry's
`size`), at a given indentation depth. -/
def jsonPretty (depth : Nat) : Json → String
  | Json.null => "null"
  | Json.bool true => "true"
  | Json.bool false => "false"
  | Json.num n => toString n
  | Json.str s => jsonQuote s
  | Json.arr [] => "[]"
  | Json.arr (x :: xs) =>
      "[\n" ++ joinSep ",\n" (jsonPrettyItems (depth + 1) (x :: xs)) ++
        "\n" ++ indentStr depth ++ "]"
  | Json.obj [] => "\x7b\x7d"
  | Json.obj (f :: fs) =>
      "\x7b\n" ++ joinSep ",\n" (jsonPrettyFields (depth + 1) (f :: fs)) ++
        "\n" ++ indentStr depth ++ "\x7d"

/-- Pretty-printed array items, each on its own indented line. -/
def jsonPrettyItems (depth : Nat) : List Json → List String
  | [] => []
  | x :: xs => (indentStr depth ++ jsonPretty depth x) :: jsonPrettyItems depth xs

/-- Pretty-printed object fields, each on its own indented line. -/
def jsonPrettyFields (depth : Nat) : List (String × Json) → List String
  | [] => []
  | (k, v) :: fs =>
      (indentStr depth ++ jsonQuote k ++ ": " ++ jsonPretty depth v) ::
        jsonPrettyFields depth fs

end

mutual

/-- `CacheManager.safeStringify` restricted to the acyclic payload domain:
on tree-shaped values the `visited` set never fires, so the function is the
plain recursive serialization with template-literal key quoting
(`"${key}"`, i.e. raw keys between quotes). -/
def safeStringifyJson : Json → String
  | Json.null => "null"
  | Json.bool true => "true"
  | Json.bool false => "false"
  | Json.num n => toString n
  | Json.str s => jsonQuote s
  | Json.arr items => "[" ++ joinSep "," (safeStringifyItems items) ++ "]"
  | Json.obj fields => "\x7b" ++ joinSep "," (safeStringifyFields fields) ++ "\x7d"

/-- Serialized array items of `safeStringify`. -/
def safeStringifyItems : List Json → List String
  | [] => []
  | x :: xs => safeStringifyJson x :: safeStringifyItems xs

/-- Serialized object fields of `safeStringify` (keys quoted verbatim by the
template literal, values recursively). -/
def safeStringifyFields : List (String × Json) → List String
  | [] => []
  | (k, v) :: fs => ("\"" ++ k ++ "\":" ++ safeStringifyJson v) :: safeStringifyFields fs

end

/-! ## Cache data model (`CacheEntry`, `CacheMetadata`, the two tiers) -/

/-- Model of the `CacheEntry<T>` interface. -/
structure CacheEntry : Type where
  data : Json
  timestamp : Int
  ttl : Int
  size : Nat
  key : String

/-- Model of the `CacheMetadata` interface. -/
structure CacheMetadata : Type where
  key : String
  timestamp : Int
  ttl : Int
  size : Nat
  fingerprint : String
  accessed : Int
deriving DecidableEq

/-- A namespace's `metadata.json` as found on disk: missing, unparsable
(`JSON.parse` throws in `loadMetadata`), or a parsed record mapping. -/
inductive MetaDoc : Type
  | absent : MetaDoc
  | corrupt : MetaDoc
  | good (m : List (String × CacheMetadata)) : MetaDoc

/-- Process-wide cache state: the memory tier (`memoryCache`,
`currentMemorySize`) and the file tier (`entryFiles` holds the parsed
`<namespace>/<key>.json` files, `metaDocs` the per-namespace
`metadata.json` documents). -/
structure CacheState : Type where
  memoryCache : List (String × CacheEntry)
  currentMemorySize : Int
  entryFiles : List ((String × String) × CacheEntry)
  metaDocs : List (String × MetaDoc)

/-- The hardcoded `maxMemorySize` field: 100 MiB. -/
def maxMemorySize : Int := 104857600

/-- The eviction target `this.maxMemorySize * 0.8`: for the hardcoded
104857600 the IEEE-double product is exactly 83886080. -/
def evictTarget : Int := 83886080

/-- `CacheManager.generateKey`. -/
def generateKey (ns identifier : String) : String :=
  ns ++ "_" ++ md5hex identifier

/-- `CacheManager.generateFingerprint`. -/
def generateFingerprint (data : Json) : String :=
  md5hex (safeStringifyJson data)

/-- `CacheManager.isExpired`, with the `Date.now()` read made explicit. -/
def isExpired (now timestamp ttl : Int) : Bool :=
  now - timestamp > ttl

/-- File-tier read of `<ns>/<key>.json` (the `fs.existsSync` +
`fs.readFileSync` + `JSON.parse` sequence in `get`). -/
def fileRead (s : CacheState) (ns key : String) : Option CacheEntry :=
  mapGet (ns, key) s.entryFiles

/-- File-tier write of `<ns>/<key>.json` (`fs.writeFileSync` in `set`). -/
def fileWrite (ns key : String) (e : CacheEntry) (files : List ((String × String) × CacheEntry)) :
    List ((String × String) × CacheEntry) :=
  mapSet (ns, key) e files

/-- File-tier unlink of `<ns>/<key>.json` (`fs.unlinkSync` guarded by
`fs.existsSync`; deleting an absent file is a no-op). -/
def fileDelete (ns key : String) (files : List ((String × String) × CacheEntry)) :
    List ((String × String) × CacheEntry) :=
  mapDelete (ns, key) files

/-- `CacheManager.loadMetadata`: the parsed document, or the empty mapping
when the file is missing or `JSON.parse` throws (the catch branch). -/
def loadMetadata (s : CacheState) (ns : String) : List (String × CacheMetadata) :=
  match mapGet ns s.metaDocs with
  | some (MetaDoc.good m) => m
  | _ => []

/-- `CacheManager.saveMetadata` (the write succeeds in this model; the
source catches and logs write failures without further effect). -/
def saveMetadata (ns : String) (m : List (String × CacheMetadata)) (s : CacheState) : CacheState :=
  { s with metaDocs := mapSet ns (MetaDoc.good m) s.metaDocs }

/-- The entry file content written by `set` is
`JSON.stringify(entry, null, 2)` of the entry *before* `entry.size` is
updated, so the serialized `size` field is always `0`. -/
def entryContent (e : CacheEntry) : String :=
  jsonPretty 0 (Json.obj
    [("data", e.data), ("timestamp", Json.num e.timestamp), ("ttl", Json.num e.ttl),
     ("size", Json.num e.size), ("key", Json.str e.key)])

/-- `Buffer.byteLength(content, "utf8")` for an entry's serialized form. -/
def entryContentSize (e : CacheEntry) : Nat :=
  byteLength (entryContent e)

/-! ## Memory-tier eviction -/

/-- Sum of the `size` fields of the resident memory-tier entries (what the
spec calls the true byte occupancy; the source tracks `currentMemorySize`
separately). -/
def sumSizes (l : List (String × CacheEntry)) : Int :=
  (l.map fun p => (p.2.size : Int)).sum

/-- Ascending-timestamp comparator of
`entries.sort((a, b) => a[1].timestamp - b[1].timestamp)`. -/
def tsLE (a b : String × CacheEntry) : Prop :=
  a.2.timestamp ≤ b.2.timestamp

instance : DecidableRel tsLE := fun a b => Int.decLe a.2.timestamp b.2.timestamp

/-- The sorted snapshot `Array.from(this.memoryCache.entries())` after the
stable ascending-timestamp sort. -/
def sortByTimestamp (l : List (String × CacheEntry)) : List (String × CacheEntry) :=
  List.insertionSort tsLE l

/-- The `while` loop of `evictMemoryCache`: shift the oldest snapshot entry,
delete it from the map and subtract its size, while the running total
exceeds the 80% target and the snapshot is nonempty. -/
def evictGo : List (String × CacheEntry) → List (String × CacheEntry) → Int →
    List (String × CacheEntry) × Int
  | [], mem, cur => (mem, cur)
  | (k, e) :: rest, mem, cur =>
      if cur > evictTarget then evictGo rest (mapDelete k mem) (cur - e.size)
      else (mem, cur)

/-- `CacheManager.evictMemoryCache`. -/
def evictMemoryCache (s : CacheState) : CacheState :=
  let r := evictGo (sortByTimestamp s.memoryCache) s.memoryCache s.currentMemorySize
  { s with memoryCache := r.1, currentMemorySize := r.2 }

/-! ## Lifecycle operations -/

/-- The memory-tier insert used by both `set` and `get`'s file-tier
promotion (the adjacent statements `this.memoryCache.set(key, entry)` and
`this.currentMemorySize += size`; the increment never subtracts a prior
resident entry's size). -/
def memInsert (key : String) (entry : CacheEntry) (s : CacheState) : CacheState :=
  { s with memoryCache := mapSet key entry s.memoryCache,
           currentMemorySize := s.currentMemorySize + entry.size }

/-- The eviction trigger following each memory-tier insert:
`if (this.currentMemorySize > this.maxMemorySize) this.evictMemoryCache()`. -/
def maybeEvict (s : CacheState) : CacheState :=
  if s.currentMemorySize > maxMemorySize then evictMemoryCache s else s

/-- The file-tier half of `get` (everything after the memory-tier check). -/
def getFromFile (now : Int) (ns key : String) (acceptExpired : Bool) (s : CacheState) :
    CacheState × Option Json :=
  match fileRead s ns key with
  | some fe =>
      if !isExpired now fe.timestamp fe.ttl || acceptExpired then
        let size := entryContentSize fe
        let s2 := maybeEvict (memInsert key { fe with size := size } s)
        let md := loadMetadata s2 ns
        let s3 :=
          match mapGet key md with
          | some r => saveMetadata ns (mapSet key { r with accessed := now } md) s2
          | none => s2
        (s3, some fe.data)
      else
        ({ s with entryFiles := fileDelete ns key s.entryFiles }, none)
  | none => (s, none)

/-- `CacheManager.get`, returning the successor state and the result
(`none` models the `null` miss result). -/
def getExec (now : Int) (ns identifier : String) (acceptExpired : Bool) (s : CacheState) :
    CacheState × Option Json :=
  let key := generateKey ns identifier
  match mapGet key s.memoryCache with
  | some e =>
      if !isExpired now e.timestamp e.ttl || acceptExpired then (s, some e.data)
      else
        getFromFile now ns key acceptExpired
          { s with memoryCache := mapDelete key s.memoryCache,
                   currentMemorySize := s.currentMemorySize - e.size }
  | none => getFromFile now ns key acceptExpired s

/-- `options.ttl || 24 * 60 * 60 * 1000`: `undefined` and the falsy `0`
fall back to the 24-hour default, every other number (negative ones
included) is kept. -/
def resolveTtl (ttlOpt : Option Int) : Int :=
  match ttlOpt with
  | none => 86400000
  | some t => if t = 0 then 86400000 else t

/-- `CacheManager.set` on the acyclic payload domain (where the bare
`JSON.stringify(entry, null, 2)` cannot throw; the cyclic case is treated
by the heap model below).  All `fs` writes succeed; the try/catch around
them never fires in this model. -/
def setExec (now : Int) (ns identifier : String) (data : Json) (ttlOpt : Option Int)
    (s : CacheState) : CacheState :=
  let key := generateKey ns identifier
  let ttl := resolveTtl ttlOpt
  let fingerprint := generateFingerprint data
  let entry0 : CacheEntry := { data := data, timestamp := now, ttl := ttl, size := 0, key := key }
  let size := entryContentSize entry0
  let entry : CacheEntry := { entry0 with size := size }
  let s1 : CacheState := { s with entryFiles := fileWrite ns key entry0 s.entryFiles }
  let md := loadMetadata s1 ns
  let mrec : CacheMetadata :=
    { key := key, timestamp := now, ttl := ttl, size := size,
      fingerprint := fingerprint, accessed := now }
  let s2 := saveMetadata ns (mapSet key mrec md) s1
  maybeEvict (memInsert key entry s2)

/-- Character-list version of JS `String.prototype.startsWith`. -/
def charsLeadWith : List Char → List Char → Bool
  | _, [] => true
  | [], _ :: _ => false
  | c :: cs, d :: ds => if c = d then charsLeadWith cs ds else false

/-- Model of JS `String.prototype.startsWith` (`key.startsWith(namespace)`). -/
def strStartsWith (s pre : String) : Bool :=
  charsLeadWith s.data pre.data

/-- First character of a JS string as produced by array destructuring
(`const [key] of keys` on a string yields its first code point).  Keys in
the memory cache are always of the nonempty form `namespace ++ "_" ++ hash`,
so the `undefined`-on-empty case cannot arise there. -/
def strHead (s : String) : String :=
  match s.data with
  | [] => ""
  | c :: _ => String.mk [c]

/-- The memory-tier purge loop of namespace invalidation:
`for (const [key] of Array.from(this.memoryCache.keys()))` destructures each
key string into its first character, tests `startsWith(namespace)` on that
character, and deletes that one-character string from the map. -/
def invalidateMemLoop (ns : String) : List String → List (String × CacheEntry) →
    List (String × CacheEntry)
  | [], mem => mem
  | k :: ks, mem =>
      let k1 := strHead k
      invalidateMemLoop ns ks (if strStartsWith k1 ns then mapDelete k1 mem else mem)

/-- All entry files of one namespace removed (`fs.rmSync(nsPath, recursive)`
followed by `fs.mkdirSync`): the directory, its entry files and its
`metadata.json` are gone and the directory is recreated empty. -/
def removeNamespaceFiles (ns : String) (files : List ((String × String) × CacheEntry)) :
    List ((String × String) × CacheEntry) :=
  files.filter fun p => p.1.1 ≠ ns

/-- `CacheManager.invalidate`. -/
def invalidateExec (ns : String) (idOpt : Option String) (s : CacheState) : CacheState :=
  match idOpt with
  | some identifier =>
      let key := generateKey ns identifier
      let s1 : CacheState := { s with memoryCache := mapDelete key s.memoryCache }
      let s2 : CacheState := { s1 with entryFiles := fileDelete ns key s1.entryFiles }
      let md := loadMetadata s2 ns
      saveMetadata ns (mapDelete key md) s2
  | none =>
      let s1 : CacheState :=
        { s with entryFiles := removeNamespaceFiles ns s.entryFiles,
                 metaDocs := mapDelete ns s.metaDocs }
      { s1 with memoryCache := invalidateMemLoop ns (s1.memoryCache.map Prod.fst) s1.memoryCache }

/-- Model of the `NamespaceCacheStatus` interface. -/
structure NamespaceCacheStatus : Type where
  totalEntries : Nat
  validEntries : Nat
  totalSize : Nat
  oldestEntry : Option Int
  newestEntry : Option Int
deriving DecidableEq

/-- The per-namespace half of `getCacheStatus`, computed purely from the
metadata document. -/
def namespaceStatus (now : Int) (s : CacheState) (ns : String) : NamespaceCacheStatus :=
  let entries := (loadMetadata s ns).map Prod.snd
  { totalEntries := entries.length,
    validEntries := (entries.filter fun e => ¬ isExpired now e.timestamp e.ttl).length,
    totalSize := (entries.map fun e => e.size).sum,
    oldestEntry :=
      match entries.map fun e => e.timestamp with
      | [] => none
      | t :: ts => some (ts.foldl min t),
    newestEntry :=
      match entries.map fun e => e.timestamp with
      | [] => none
      | t :: ts => some (ts.foldl max t) }

/-- The namespaces hardcoded in `ensureCacheDirectory`, `getCacheStatus`
and `cleanup`. -/
def knownNamespaces : List String := ["grind75", "leetcode", "companies"]

/-- The `for (const [key, entry] of Object.entries(metadata))` loop of
`cleanup`: expired records get their backing file unlinked and are counted,
valid ones are copied into the rebuilt document in order. -/
def cleanupScan (now : Int) (ns : String) : List (String × CacheMetadata) → CacheState →
    List (String × CacheMetadata) → Nat → CacheState × List (String × CacheMetadata) × Nat
  | [], s, upd, cnt => (s, upd, cnt)
  | (k, e) :: rest, s, upd, cnt =>
      if isExpired now e.timestamp e.ttl then
        cleanupScan now ns rest { s with entryFiles := fileDelete ns k s.entryFiles } upd (cnt + 1)
      else
        cleanupScan now ns rest s (upd ++ [(k, e)]) cnt

/-- One namespace's share of `cleanup`: the document is rewritten only when
at least one record was removed. -/
def cleanupNs (now : Int) (s : CacheState) (ns : String) : CacheState :=
  let r := cleanupScan now ns (loadMetadata s ns) s [] 0
  if r.2.2 > 0 then saveMetadata ns r.2.1 r.1 else r.1

/-- `CacheManager.cleanup`. -/
def cleanupExec (now : Int) (s : CacheState) : CacheState :=
  knownNamespaces.foldl (cleanupNs now) s

/-- The state of the lazily-created singleton right after the constructor:
empty memory tier, zero running size, the provisioned namespace directories
empty (no entry files, no metadata documents yet). -/
def initialState : CacheState :=
  { memoryCache := [], currentMemorySize := 0, entryFiles := [], metaDocs := [] }

/-- One public cache operation together with the `Date.now()` instant at
which it runs (the sequences quantified over by the eviction-bound claim). -/
inductive CacheOp : Type
  | setOp (now : Int) (ns identifier : String) (data : Json) (ttl : Option Int) : CacheOp
  | getOp (now : Int) (ns identifier : String) (acceptExpired : Bool) : CacheOp

/-- Apply one operation to the state. -/
def applyOp (s : CacheState) : CacheOp → CacheState
  | CacheOp.setOp now ns identifier data ttl => setExec now ns identifier data ttl s
  | CacheOp.getOp now ns identifier ae => (getExec now ns identifier ae s).1

/-- The state reached from a cold start by a sequence of `set`/`get` calls. -/
def execOps (ops : List CacheOp) : CacheState :=
  ops.foldl applyOp initialState

/-! ## Heap model of JS values (cyclic object graphs, for the cycle-safety
claim about `set`) -/

/-- A JS value: a primitive or a reference to a heap object. -/
inductive JVal : Type
  | vnull : JVal
  | vbool (b : Bool) : JVal
  | vnum (n : Int) : JVal
  | vstr (s : String) : JVal
  | vref (a : Nat) : JVal
deriving DecidableEq

/-- A heap object: an array or a plain object; fields hold values, which may
refer back into the heap, so cyclic graphs are representable. -/
inductive JObj : Type
  | jarr (items : List JVal) : JObj
  | jobj (fields : List (String × JVal)) : JObj

/-- The object heap: address `a` denotes `h.get? a`. -/
abbrev JHeap : Type := List JObj

/-- `JSON.stringify` on a primitive (the `typeof obj !== "object"` branch of
`safeStringify`; a `vref` never reaches this function). -/
def primStringify : JVal → String
  | JVal.vnull => "null"
  | JVal.vbool true => "true"
  | JVal.vbool false => "false"
  | JVal.vnum n => toString n
  | JVal.vstr s => jsonQuote s
  | JVal.vref _ => ""

/-- `CacheManager.safeStringify` on the heap model.  `visited` is the set of
object addresses currently being walked; an address met again while still on
the walk yields the `"[Circular]"` marker.  Passing `a :: visited` only into
the recursive calls models the `visited.add(obj)` / `visited.delete(obj)`
bracket exactly.  `fuel` bounds the walk depth; the walk of a heap `h` never
needs more than `h.length + 1` fuel because `visited` grows along a path and
holds distinct addresses of `h`.  A dangling address (absent from the heap,
impossible for values built by the program) serializes as `"null"`. -/
def safeStringifyH (h : JHeap) : Nat → List Nat → JVal → String
  | _, _, JVal.vnull => "null"
  | _, _, JVal.vbool true => "true"
  | _, _, JVal.vbool false => "false"
  | _, _, JVal.vnum n => toString n
  | _, _, JVal.vstr s => jsonQuote s
  | 0, _, JVal.vref _ => ""
  | fuel + 1, visited, JVal.vref a =>
      if a ∈ visited then "\"[Circular]\""
      else
        match h.get? a with
        | none => "null"
        | some (JObj.jarr items) =>
            "[" ++ joinSep "," (items.map (safeStringifyH h fuel (a :: visited))) ++ "]"
        | some (JObj.jobj fields) =>
            "\x7b" ++
              joinSep ","
                (fields.map fun p =>
                  "\"" ++ p.1 ++ "\":" ++ safeStringifyH h fuel (a :: visited) p.2) ++ "\x7d"

/-- All-or-nothing sequencing of a list of fallible results (`JSON.stringify`
throws as soon as one child does). -/
def optSequence {α : Type} : List (Option α) → Option (List α)
  | [] => some []
  | none :: _ => none
  | some x :: rest =>
      match optSequence rest with
      | none => none
      | some xs => some (x :: xs)

/-- The plain `JSON.stringify` on the heap model (compact form; the `null, 2`
pretty spacing changes only whitespace, never whether the call returns).
`stack` is the set of ancestor addresses of the current walk; meeting one
again means a circular structure, on which `JSON.stringify` throws a
`TypeError` — modelled as `none`.  `none` on fuel exhaustion as well; as for
`safeStringifyH`, `h.length + 1` fuel always suffices. -/
def jsonStringifyH (h : JHeap) : Nat → List Nat → JVal → Option String
  | _, _, JVal.vnull => some "null"
  | _, _, JVal.vbool true => some "true"
  | _, _, JVal.vbool false => some "false"
  | _, _, JVal.vnum n => some (toString n)
  | _, _, JVal.vstr s => some (jsonQuote s)
  | 0, _, JVal.vref _ => none
  | fuel + 1, stack, JVal.vref a =>
      if a ∈ stack then none
      else
        match h.get? a with
        | none => some "null"
        | some (JObj.jarr items) =>
            match optSequence (items.map (jsonStringifyH h fuel (a :: stack))) with
            | none => none
            | some parts => some ("[" ++ joinSep "," parts ++ "]")
        | some (JObj.jobj fields) =>
            match
              optSequence (fields.map fun p =>
                (jsonStringifyH h fuel (a :: stack) p.2).map
                  fun sv => jsonQuote p.1 ++ ":" ++ sv) with
            | none => none
            | some parts => some ("\x7b" ++ joinSep "," parts ++ "\x7d")

/-- `CacheManager.generateFingerprint` on the heap model. -/
def generateFingerprintH (h : JHeap) (v : JVal) : String :=
  md5hex (safeStringifyH h (h.length + 1) [] v)

/-- The unguarded statement `const content = JSON.stringify(entry, null, 2)`
of `set` (it precedes the `try` block): the freshly constructed entry object
wraps the caller's `data` reference, so the call returns a string exactly
when `data`'s object graph is acyclic, and throws (`none`) when `data`
contains itself as a descendant. -/
def setSerializeEntry (h : JHeap) (v : JVal) (now ttl : Int) (key : String) : Option String :=
  let h1 : JHeap := h ++ [JObj.jobj
    [("data", v), ("timestamp", JVal.vnum now), ("ttl", JVal.vnum ttl),
     ("size", JVal.vnum 0), ("key", JVal.vstr key)]]
  jsonStringifyH h1 (h1.length + 1) [] (JVal.vref h.length)

/-- Whether the `set` call raises to its caller on the given data value: the
fingerprint step (`safeStringifyH`) is total, the in-try file operations are
caught, so the only escape is the unguarded entry serialization. -/
def setThrowsOn (h : JHeap) (v : JVal) (now ttl : Int) (key : String) : Bool :=
  (setSerializeEntry h v now ttl key).isNone

/-! ## Association-list lemmas -/

/-- Unique-key invariant of a JS `Map` / JSON object. -/
def nodupKeys {κ α : Type} (l : List (κ × α)) : Prop :=
  (l.map Prod.fst).Nodup

theorem nodupKeys_nil {κ α : Type} : nodupKeys ([] : List (κ × α)) := by
  simp [nodupKeys]

theorem nodupKeys_cons {κ α : Type} {p : κ × α} {l : List (κ × α)} (h : nodupKeys (p :: l)) :
    nodupKeys l :=
  (List.nodup_cons.mp h).2

theorem mapGet_mapSet_self {κ α : Type} [DecidableEq κ] (k : κ) (v : α) (l : List (κ × α)) :
    mapGet k (mapSet k v l) = some v := by
  induction l with
  | nil => simp [mapGet, mapSet]
  | cons p rest ih =>
      obtain ⟨k1, v1⟩ := p
      by_cases h : k1 = k
      · simp [mapGet, mapSet, h]
      · simp [mapGet, mapSet, h, ih]

theorem mapGet_mapSet_ne {κ α : Type} [DecidableEq κ] {k k1 : κ} (v : α) (l : List (κ × α))
    (h : k1 ≠ k) : mapGet k1 (mapSet k v l) = mapGet k1 l := by
  induction l with
  | nil => simp [mapGet, mapSet, Ne.symm h]
  | cons p rest ih =>
      obtain ⟨k2, v2⟩ := p
      by_cases h2 : k2 = k
      · subst h2
        simp [mapGet, mapSet, Ne.symm h]
      · simp only [mapSet, if_neg h2, mapGet]
        by_cases h3 : k2 = k1
        · simp [h3]
        · simp [h3, ih]

theorem mapGet_mapDelete_ne {κ α : Type} [DecidableEq κ] {k k1 : κ} (l : List (κ × α))
    (h : k1 ≠ k) : mapGet k1 (mapDelete k l) = mapGet k1 l := by
  induction l with
  | nil => simp [mapDelete]
  | cons p rest ih =>
      obtain ⟨k2, v2⟩ := p
      by_cases h2 : k2 = k
      · subst h2
        simp [mapGet, mapDelete, Ne.symm h]
      · simp only [mapDelete, if_neg h2, mapGet]
        by_cases h3 : k2 = k1
        · simp [h3]
        · simp [h3, ih]

theorem mapGet_some_mem {κ α : Type} [DecidableEq κ] {k : κ} {v : α} {l : List (κ × α)}
    (h : mapGet k l = some v) : (k, v) ∈ l := by
  induction l with
  | nil => simp [mapGet] at h
  | cons p rest ih =>
      obtain ⟨k1, v1⟩ := p
      by_cases h1 : k1 = k
      · subst h1
        simp [mapGet] at h
        simp [h]
      · simp [mapGet, h1] at h
        exact List.mem_cons_of_mem _ (ih h)

theorem mapGet_of_mem_nodup {κ α : Type} [DecidableEq κ] {k : κ} {v : α} {l : List (κ × α)}
    (hnd : nodupKeys l) (hm : (k, v) ∈ l) : mapGet k l = some v := by
  induction l with
  | nil => simp at hm
  | cons p rest ih =>
      obtain ⟨k1, v1⟩ := p
      rcases List.mem_cons.mp hm with heq | htail
      · injection heq with h1 h2
        subst h1
        subst h2
        simp [mapGet]
      · have hk1 : k1 ≠ k := by
          intro hk
          subst hk
          exact (List.nodup_cons.mp hnd).1 (List.mem_map.mpr ⟨(k1, v), htail, rfl⟩)
      
        simp [mapGet, hk1, ih (nodupKeys_cons hnd) htail]

theorem mapSet_keys {κ α : Type} [DecidableEq κ] (k : κ) (v : α) (l : List (κ × α)) :
    (mapSet k v l).map Prod.fst =
      if k ∈ l.map Prod.fst then l.map Prod.fst else l.map Prod.fst ++ [k] := by
  induction l with
  | nil => simp [mapSet]
  | cons p rest ih =>
      obtain ⟨k1, v1⟩ := p
      by_cases h : k1 = k
      · subst h
        simp [mapSet]
      · by_cases h2 : k ∈ rest.map Prod.fst
        · simp [mapSet, h, ih, h2, Ne.symm h]
        · simp [mapSet, h, ih, h2, Ne.symm h]

theorem nodupKeys_mapSet {κ α : Type} [DecidableEq κ] (k : κ) (v : α) {l : List (κ × α)}
    (h : nodupKeys l) : nodupKeys (mapSet k v l) := by
  unfold nodupKeys at h ⊢
  rw [mapSet_keys]
  by_cases hk : k ∈ l.map Prod.fst
  · simpa [hk] using h
  · simp only [hk, if_false]
    simp [List.nodup_append, h, hk]

theorem mapDelete_sublist {κ α : Type} [DecidableEq κ] (k : κ) (l : List (κ × α)) :
    (mapDelete k l).Sublist l := by
  induction l with
  | nil => simp [mapDelete]
  | cons p rest ih =>
      obtain ⟨k1, v1⟩ := p
      by_cases h : k1 = k
      · simpa [mapDelete, h] using List.sublist_cons_self (k1, v1) rest
      · simpa [mapDelete, h] using List.Sublist.cons₂ (k1, v1) ih

theorem nodupKeys_mapDelete {κ α : Type} [DecidableEq κ] (k : κ) {l : List (κ × α)}
    (h : nodupKeys l) : nodupKeys (mapDelete k l) :=
  ((mapDelete_sublist k l).map Prod.fst).nodup h

theorem mem_of_mem_mapDelete {κ α : Type} [DecidableEq κ] {k : κ} {p : κ × α}
    {l : List (κ × α)} (h : p ∈ mapDelete k l) : p ∈ l :=
  (mapDelete_sublist k l).subset h

theorem mem_mapDelete_of_ne {κ α : Type} [DecidableEq κ] {k : κ} {p : κ × α}
    {l : List (κ × α)} (hm : p ∈ l) (hne : p.1 ≠ k) : p ∈ mapDelete k l := by
  induction l with
  | nil => simp at hm
  | cons q rest ih =>
      obtain ⟨k1, v1⟩ := q
      rcases List.mem_cons.mp hm with heq | htail
      · subst heq
        simp [mapDelete, hne]
      · by_cases h : k1 = k
        · simp [mapDelete, h, htail]
        · simp [mapDelete, h, ih htail]

theorem key_ne_of_mem_mapDelete {κ α : Type} [DecidableEq κ] {k : κ} {p : κ × α}
    {l : List (κ × α)} (hnd : nodupKeys l) (h : p ∈ mapDelete k l) : p.1 ≠ k := by
  induction l with
  | nil => simp [mapDelete] at h
  | cons q rest ih =>
      obtain ⟨k1, v1⟩ := q
      by_cases hk : k1 = k
      · subst hk
        simp only [mapDelete, if_pos rfl] at h
        intro hpk
        exact (List.nodup_cons.mp hnd).1
          (List.mem_map.mpr ⟨p, h, hpk⟩)
      · simp only [mapDelete, if_neg hk] at h
        rcases List.mem_cons.mp h with heq | htail
        · subst heq
          exact hk
        · exact ih (nodupKeys_cons hnd) htail

/-! ## Size-accounting lemmas for the memory tier -/

theorem sumSizes_nil : sumSizes [] = 0 := rfl

theorem sumSizes_cons (p : String × CacheEntry) (l : List (String × CacheEntry)) :
    sumSizes (p :: l) = p.2.size + sumSizes l := by
  simp [sumSizes]

theorem sumSizes_consPair (k : String) (e : CacheEntry) (l : List (String × CacheEntry)) :
    sumSizes ((k, e) :: l) = e.size + sumSizes l := by
  simp [sumSizes]

theorem sumSizes_nonneg (l : List (String × CacheEntry)) : 0 ≤ sumSizes l := by
  induction l with
  | nil => simp [sumSizes_nil]
  | cons p rest ih =>
      rw [sumSizes_cons]
      positivity

theorem size_le_sumSizes {k : String} {e0 : CacheEntry} {l : List (String × CacheEntry)}
    (h : mapGet k l = some e0) : (e0.size : Int) ≤ sumSizes l := by
  induction l with
  | nil => simp [mapGet] at h
  | cons p rest ih =>
      obtain ⟨k1, v1⟩ := p
      rw [sumSizes_consPair]
      by_cases h1 : k1 = k
      · simp [mapGet, h1] at h
        subst h
        have hr := sumSizes_nonneg rest
        omega
      · simp [mapGet, h1] at h
        have hih := ih h
        have hv1 : (0 : Int) ≤ v1.size := by positivity
        omega

theorem sumSizes_mapSet_none {k : String} (v : CacheEntry) {l : List (String × CacheEntry)}
    (h : mapGet k l = none) : sumSizes (mapSet k v l) = sumSizes l + v.size := by
  induction l with
  | nil => simp [mapSet, sumSizes_cons, sumSizes_nil]
  | cons p rest ih =>
      obtain ⟨k1, v1⟩ := p
      by_cases h1 : k1 = k
      · simp [mapGet, h1] at h
      · simp [mapGet, h1] at h
        rw [show mapSet k v ((k1, v1) :: rest) = (k1, v1) :: mapSet k v rest from by
          simp [mapSet, h1], sumSizes_consPair, sumSizes_consPair, ih h]
        ring

theorem sumSizes_mapSet_some {k : String} (v : CacheEntry) {e0 : CacheEntry}
    {l : List (String × CacheEntry)} (h : mapGet k l = some e0) :
    sumSizes (mapSet k v l) = sumSizes l - e0.size + v.size := by
  induction l with
  | nil => simp [mapGet] at h
  | cons p rest ih =>
      obtain ⟨k1, v1⟩ := p
      by_cases h1 : k1 = k
      · simp [mapGet, h1] at h
        subst h
        rw [show mapSet k v ((k1, v1) :: rest) = (k, v) :: rest from by simp [mapSet, h1],
          sumSizes_consPair, sumSizes_consPair]
        ring
      · simp [mapGet, h1] at h
        rw [show mapSet k v ((k1, v1) :: rest) = (k1, v1) :: mapSet k v rest from by
          simp [mapSet, h1], sumSizes_consPair, sumSizes_consPair, ih h]
        ring

theorem sumSizes_mapDelete_some {k : String} {e0 : CacheEntry}
    {l : List (String × CacheEntry)} (h : mapGet k l = some e0) :
    sumSizes (mapDelete k l) = sumSizes l - e0.size := by
  induction l with
  | nil => simp [mapGet] at h
  | cons p rest ih =>
      obtain ⟨k1, v1⟩ := p
      by_cases h1 : k1 = k
      · simp [mapGet, h1] at h
        subst h
        rw [show mapDelete k ((k1, v1) :: rest) = rest from by simp [mapDelete, h1],
          sumSizes_consPair]
        ring
      · simp [mapGet, h1] at h
        rw [show mapDelete k ((k1, v1) :: rest) = (k1, v1) :: mapDelete k rest from by
          simp [mapDelete, h1], sumSizes_consPair, sumSizes_consPair, ih h]
        ring

/-! ## Eviction-loop lemmas -/

theorem evictGo_subset : ∀ (rem mem : List (String × CacheEntry)) (cur : Int)
    (p : String × CacheEntry), p ∈ (evictGo rem mem cur).1 → p ∈ mem
  | [], _, _, _, hp => hp
  | (k, e) :: rest, mem, cur, p, hp => by
      by_cases h : cur > evictTarget
      · simp only [evictGo, if_pos h] at hp
        exact mem_of_mem_mapDelete (evictGo_subset rest (mapDelete k mem) (cur - e.size) p hp)
      · simpa only [evictGo, if_neg h] using hp

theorem evictGo_spec : ∀ (rem mem : List (String × CacheEntry)) (cur : Int),
    (∀ p : String × CacheEntry, p ∈ rem ↔ p ∈ mem) →
    nodupKeys rem → nodupKeys mem →
    nodupKeys (evictGo rem mem cur).1 ∧
    (evictGo rem mem cur).2 - sumSizes (evictGo rem mem cur).1 = cur - sumSizes mem ∧
    ((evictGo rem mem cur).2 ≤ evictTarget ∨ (evictGo rem mem cur).1 = []) ∧
    (evictGo rem mem cur).2 ≤ cur ∧
    (∃ n, ∀ p : String × CacheEntry, p ∈ (evictGo rem mem cur).1 ↔ p ∈ rem.drop n)
  | [], mem, cur, hmem, _, _ => by
      have hnil : mem = [] := by
        apply List.eq_nil_iff_forall_not_mem.mpr
        intro p hp
        exact (List.not_mem_nil p) ((hmem p).mpr hp)
      subst hnil
      refine ⟨nodupKeys_nil, by simp [evictGo], Or.inr rfl, le_refl cur, 0, ?_⟩
      simp [evictGo]
  | (k, e) :: rest, mem, cur, hmem, hnr, hnm => by
      by_cases h : cur > evictTarget
      · have hk : (k, e) ∈ mem := (hmem (k, e)).mp (List.mem_cons_self _ _)
        have hget : mapGet k mem = some e := mapGet_of_mem_nodup hnm hk
        have hknotin : k ∉ rest.map Prod.fst := (List.nodup_cons.mp hnr).1
        have hmem2 : ∀ p : String × CacheEntry, p ∈ rest ↔ p ∈ mapDelete k mem := by
          intro p
          constructor
          · intro hp
            refine mem_mapDelete_of_ne ((hmem p).mp (List.mem_cons_of_mem _ hp)) ?_
            intro hpk
            exact hknotin (hpk ▸ List.mem_map.mpr ⟨p, hp, rfl⟩)
          · intro hp
            have hpm : p ∈ mem := mem_of_mem_mapDelete hp
            have hpk : p.1 ≠ k := key_ne_of_mem_mapDelete hnm hp
            rcases List.mem_cons.mp ((hmem p).mpr hpm) with heq | htail
            · exact absurd (congrArg Prod.fst heq) hpk
            · exact htail
        obtain ⟨ih1, ih2, ih3, ih4, n, ih5⟩ :=
          evictGo_spec rest (mapDelete k mem) (cur - e.size) hmem2
            (nodupKeys_cons hnr) (nodupKeys_mapDelete k hnm)
        have hgo : evictGo ((k, e) :: rest) mem cur
            = evictGo rest (mapDelete k mem) (cur - e.size) := by
          simp only [evictGo, if_pos h]
        rw [hgo]
        refine ⟨ih1, ?_, ih3, ?_, n + 1, ?_⟩
        · rw [ih2, sumSizes_mapDelete_some hget]
          ring
        · have he : (0 : Int) ≤ e.size := by positivity
          omega
        · intro p
          simpa using ih5 p
      · have hgo : evictGo ((k, e) :: rest) mem cur = (mem, cur) := by
          simp only [evictGo, if_neg h]
        rw [hgo]
        exact ⟨hnm, rfl, Or.inl (le_of_not_lt h), le_refl cur, 0,
          fun p => (hmem p).symm⟩

theorem evict_entryFiles (s : CacheState) : (evictMemoryCache s).entryFiles = s.entryFiles := rfl

theorem evict_metaDocs (s : CacheState) : (evictMemoryCache s).metaDocs = s.metaDocs := rfl

theorem evict_mem_subset {s : CacheState} {p : String × CacheEntry}
    (hp : p ∈ (evictMemoryCache s).memoryCache) : p ∈ s.memoryCache :=
  evictGo_subset _ _ _ p hp

theorem evictMemoryCache_spec (s : CacheState) (hnd : nodupKeys s.memoryCache) :
    nodupKeys (evictMemoryCache s).memoryCache ∧
    (evictMemoryCache s).currentMemorySize - sumSizes (evictMemoryCache s).memoryCache
      = s.currentMemorySize - sumSizes s.memoryCache ∧
    ((evictMemoryCache s).currentMemorySize ≤ evictTarget ∨
      (evictMemoryCache s).memoryCache = []) ∧
    (evictMemoryCache s).currentMemorySize ≤ s.currentMemorySize ∧
    (∃ n, ∀ p : String × CacheEntry,
      p ∈ (evictMemoryCache s).memoryCache ↔ p ∈ (sortByTimestamp s.memoryCache).drop n) := by
  have hperm : List.Perm (sortByTimestamp s.memoryCache) s.memoryCache :=
    List.perm_insertionSort tsLE s.memoryCache
  have hmem : ∀ p : String × CacheEntry,
      p ∈ sortByTimestamp s.memoryCache ↔ p ∈ s.memoryCache :=
    fun p => hperm.mem_iff
  have hnr : nodupKeys (sortByTimestamp s.memoryCache) :=
    ((hperm.map Prod.fst).nodup_iff).mpr hnd
  obtain ⟨h1, h2, h3, h4, h5⟩ :=
    evictGo_spec (sortByTimestamp s.memoryCache) s.memoryCache s.currentMemorySize
      hmem hnr hnd
  exact ⟨h1, h2, h3, h4, h5⟩

/-! ## The memory-tier accounting invariant -/

/-- Invariant of every reachable state: unique memory keys, a running total
that dominates the true resident byte sum (`set` overwrites inflate it, see
the size-accounting theorems below), and a running total within the memory
budget. -/
def memInv (s : CacheState) : Prop :=
  nodupKeys s.memoryCache ∧
  sumSizes s.memoryCache ≤ s.currentMemorySize ∧
  s.currentMemorySize ≤ maxMemorySize

theorem memInv_of_fields {s s1 : CacheState} (hm : s1.memoryCache = s.memoryCache)
    (hc : s1.currentMemorySize = s.currentMemorySize) (h : memInv s) : memInv s1 := by
  unfold memInv
  rw [hm, hc]
  exact h

theorem evictTarget_le_max : evictTarget ≤ maxMemorySize := by
  norm_num [evictTarget, maxMemorySize]

/-- The memory-tier insert of `set` / of `get`'s file-tier promotion,
followed by the conditional eviction, preserves the invariant. -/
theorem memInsert_maybeEvict_memInv (key : String) (entry : CacheEntry) {s2 : CacheState}
    (h : memInv s2) : memInv (maybeEvict (memInsert key entry s2)) := by
  obtain ⟨hnd, hsum, hcap⟩ := h
  have hesz : (0 : Int) ≤ entry.size := by positivity
  have hmemq : (memInsert key entry s2).memoryCache = mapSet key entry s2.memoryCache := rfl
  have hcurq : (memInsert key entry s2).currentMemorySize
      = s2.currentMemorySize + (entry.size : Int) := rfl
  have hnd3 : nodupKeys (memInsert key entry s2).memoryCache := by
    rw [hmemq]
    exact nodupKeys_mapSet key entry hnd
  have hsum3 : sumSizes (memInsert key entry s2).memoryCache
      ≤ (memInsert key entry s2).currentMemorySize := by
    rw [hmemq, hcurq]
    cases hk : mapGet key s2.memoryCache with
    | none => rw [sumSizes_mapSet_none entry hk]; omega
    | some e0 =>
        rw [sumSizes_mapSet_some entry hk]
        have h0 : (0 : Int) ≤ e0.size := by positivity
        omega
  have hover3 : (memInsert key entry s2).currentMemorySize
      - sumSizes (memInsert key entry s2).memoryCache ≤ maxMemorySize := by
    rw [hmemq, hcurq]
    cases hk : mapGet key s2.memoryCache with
    | none =>
        rw [sumSizes_mapSet_none entry hk]
        have h0 := sumSizes_nonneg s2.memoryCache
        omega
    | some e0 =>
        rw [sumSizes_mapSet_some entry hk]
        have h0 : (e0.size : Int) ≤ sumSizes s2.memoryCache := size_le_sumSizes hk
        omega
  unfold maybeEvict
  by_cases hc : (memInsert key entry s2).currentMemorySize > maxMemorySize
  · rw [if_pos hc]
    obtain ⟨e1, e2, e3, e4, -⟩ := evictMemoryCache_spec (memInsert key entry s2) hnd3
    refine ⟨e1, by omega, ?_⟩
    rcases e3 with h80 | hempty
    · have := evictTarget_le_max
      omega
    · rw [hempty, sumSizes_nil] at e2
      omega
  · rw [if_neg hc]
    exact ⟨hnd3, hsum3, by omega⟩

theorem memInv_mdUpdate (s2 : CacheState) (ns key : String) (now : Int) (h : memInv s2) :
    memInv (match mapGet key (loadMetadata s2 ns) with
            | some r => saveMetadata ns (mapSet key { r with accessed := now }
                (loadMetadata s2 ns)) s2
            | none => s2) := by
  cases mapGet key (loadMetadata s2 ns) with
  | none => exact h
  | some r => exact memInv_of_fields rfl rfl h

theorem getFromFile_memInv (now : Int) (ns key : String) (ae : Bool) {s : CacheState}
    (h : memInv s) : memInv (getFromFile now ns key ae s).1 := by
  cases hf : fileRead s ns key with
  | none =>
      simp only [getFromFile, hf]
      exact h
  | some fe =>
      by_cases hfresh : (!isExpired now fe.timestamp fe.ttl || ae) = true
      · simp only [getFromFile, hf, hfresh, if_true]
        exact memInv_mdUpdate _ ns key now (memInsert_maybeEvict_memInv key _ h)
      · rw [Bool.not_eq_true] at hfresh
        simp only [getFromFile, hf, hfresh, Bool.false_eq_true, if_false]
        exact memInv_of_fields rfl rfl h

theorem setExec_memInv (now : Int) (ns identifier : String) (data : Json) (t : Option Int)
    {s : CacheState} (h : memInv s) : memInv (setExec now ns identifier data t s) := by
  simp only [setExec]
  exact memInsert_maybeEvict_memInv _ _ (memInv_of_fields rfl rfl h)

theorem getExec_memInv (now : Int) (ns identifier : String) (ae : Bool) {s : CacheState}
    (h : memInv s) : memInv (getExec now ns identifier ae s).1 := by
  obtain ⟨hnd, hsum, hcap⟩ := h
  cases hm : mapGet (generateKey ns identifier) s.memoryCache with
  | none =>
      simp only [getExec, hm]
      exact getFromFile_memInv _ _ _ _ ⟨hnd, hsum, hcap⟩
  | some e =>
      by_cases hfresh : (!isExpired now e.timestamp e.ttl || ae) = true
      · simp only [getExec, hm, hfresh, if_true]
        exact ⟨hnd, hsum, hcap⟩
      · rw [Bool.not_eq_true] at hfresh
        simp only [getExec, hm, hfresh, Bool.false_eq_true, if_false]
        apply getFromFile_memInv
        have hesz : (0 : Int) ≤ e.size := by positivity
        refine ⟨nodupKeys_mapDelete _ hnd, ?_, ?_⟩
        · show sumSizes (mapDelete (generateKey ns identifier) s.memoryCache)
            ≤ s.currentMemorySize - e.size
          rw [sumSizes_mapDelete_some hm]
          omega
        · show s.currentMemorySize - (e.size : Int) ≤ maxMemorySize
          omega

theorem applyOp_memInv (s : CacheState) (op : CacheOp) (h : memInv s) :
    memInv (applyOp s op) := by
  cases op with
  | setOp now ns identifier data t => exact setExec_memInv now ns identifier data t h
  | getOp now ns identifier ae => exact getExec_memInv now ns identifier ae h

theorem foldl_memInv : ∀ (ops : List CacheOp) (s : CacheState), memInv s →
    memInv (ops.foldl applyOp s)
  | [], s, h => h
  | op :: rest, s, h => foldl_memInv rest (applyOp s op) (applyOp_memInv s op h)

theorem initialState_memInv : memInv initialState := by
  refine ⟨nodupKeys_nil, ?_, ?_⟩
  · simp [initialState, sumSizes_nil]
  · norm_num [initialState, maxMemorySize]

/-- Every state reachable through the public `set`/`get` interface satisfies
the accounting invariant. -/
theorem execOps_memInv (ops : List CacheOp) : memInv (execOps ops) :=
  foldl_memInv ops initialState initialState_memInv

/-! ## Claim C4: eviction bound -/

/-- Claim C4: for every sequence of `set` and `get` operations, the memory
tier's running byte-size total never ends above the 100 MiB capacity; and
from any reachable state, running `evictMemoryCache` removes resident
entries oldest-timestamp-first (the survivors are a suffix of the
ascending-timestamp order), completes with the running total at most 80% of
capacity unless it emptied the memory tier, and never completes with the
running total above capacity. -/
theorem eviction_bound_C4 : ∀ ops : List CacheOp,
    (execOps ops).currentMemorySize ≤ maxMemorySize ∧
    ((evictMemoryCache (execOps ops)).currentMemorySize ≤ evictTarget ∨
      (evictMemoryCache (execOps ops)).memoryCache = []) ∧
    (evictMemoryCache (execOps ops)).currentMemorySize ≤ maxMemorySize ∧
    (∃ n, ∀ p : String × CacheEntry,
      p ∈ (evictMemoryCache (execOps ops)).memoryCache ↔
        p ∈ (sortByTimestamp (execOps ops).memoryCache).drop n) := by
  intro ops
  obtain ⟨hnd, hsum, hcap⟩ := execOps_memInv ops
  obtain ⟨e1, e2, e3, e4, e5⟩ := evictMemoryCache_spec (execOps ops) hnd
  exact ⟨hcap, e3, le_trans e4 hcap, e5⟩

/-! ## Claim C3: size accounting on overwrite -/

theorem mapGet_none_of_not_keys {κ α : Type} [DecidableEq κ] {k : κ} {l : List (κ × α)}
    (h : k ∉ l.map Prod.fst) : mapGet k l = none := by
  induction l with
  | nil => rfl
  | cons p rest ih =>
      obtain ⟨k1, v1⟩ := p
      simp only [List.map_cons, List.mem_cons] at h
      push_neg at h
      simp [mapGet, Ne.symm h.1, ih h.2]

theorem mapGet_mapDelete_self {κ α : Type} [DecidableEq κ] (k : κ) {l : List (κ × α)}
    (hnd : nodupKeys l) : mapGet k (mapDelete k l) = none := by
  induction l with
  | nil => rfl
  | cons p rest ih =>
      obtain ⟨k1, v1⟩ := p
      by_cases h : k1 = k
      · subst h
        simp only [mapDelete, if_pos rfl]
        exact mapGet_none_of_not_keys (List.nodup_cons.mp hnd).1
      · simp [mapDelete, h, mapGet, ih (nodupKeys_cons hnd)]

/-- Claim C3 as stated is false: overwriting a resident key by `set` does
not first decrement the prior entry's size.  After two `set` calls with the
same namespace, identifier and payload, the single resident entry sums to
105 bytes while the running total holds both sizes, 210 bytes. -/
theorem size_accounting_C3_counterexample :
    sumSizes (execOps
      [CacheOp.setOp 0 "demo" "k" (Json.obj [("value", Json.num 42)]) none,
       CacheOp.setOp 0 "demo" "k" (Json.obj [("value", Json.num 42)]) none]).memoryCache
      = 105 ∧
    (execOps
      [CacheOp.setOp 0 "demo" "k" (Json.obj [("value", Json.num 42)]) none,
       CacheOp.setOp 0 "demo" "k" (Json.obj [("value", Json.num 42)]) none]).currentMemorySize
      = 210 := by
  constructor
  · decide
  · decide

/-- Claim C3 amended: the memory-tier insert increments the running total by
the new entry's size without decrementing the prior resident entry's size,
so each overwrite of a resident key grows the overcount (running total minus
true resident byte sum) by exactly the prior entry's size.  The insert
performed by `get`'s file-tier promotion, by contrast, never has a prior
size to decrement: the stale-memory branch of `get` has already deleted the
key (decrementing the running total by its size), leaving the key
non-resident. -/
theorem size_accounting_C3_amended (key : String) (entry : CacheEntry) (s : CacheState)
    (e0 : CacheEntry) :
    (mapGet key s.memoryCache = some e0 →
      (memInsert key entry s).currentMemorySize
        - sumSizes (memInsert key entry s).memoryCache
        = s.currentMemorySize - sumSizes s.memoryCache + e0.size) ∧
    (nodupKeys s.memoryCache → mapGet key (mapDelete key s.memoryCache) = none) := by
  constructor
  · intro hres
    have hmemq : (memInsert key entry s).memoryCache = mapSet key entry s.memoryCache := rfl
    have hcurq : (memInsert key entry s).currentMemorySize
        = s.currentMemorySize + (entry.size : Int) := rfl
    rw [hmemq, hcurq, sumSizes_mapSet_some entry hres]
    ring
  · intro hnd
    exact mapGet_mapDelete_self key hnd

/-- A small concrete payload, used by several concrete witnesses below. -/
def cPayload : Json := Json.obj [("value", Json.num 42)]

/-- A concrete `set("demo", "k", cPayload)` call at time 0. -/
def cSetOp : CacheOp := CacheOp.setOp 0 "demo" "k" cPayload none

/-- The state after one concrete `set` from a cold start. -/
def cState1 : CacheState := execOps [cSetOp]

/-- The entry resident in `cState1` under the key `demo_6b`. -/
def cEntry1 : CacheEntry :=
  { data := cPayload, timestamp := 0, ttl := 86400000, size := 105, key := "demo_6b" }

/-- A second, smaller entry overwriting the same key. -/
def cEntry2 : CacheEntry :=
  { data := Json.num 1, timestamp := 0, ttl := 86400000, size := 7, key := "demo_6b" }

/-- Witness for the amended claim C3 at a concrete overwrite: inserting a
second entry under the resident key `demo_6b` grows the overcount by the
prior entry's 105 bytes, and deleting the key makes it non-resident. -/
theorem size_accounting_C3_amended_witness :
    ((memInsert "demo_6b" cEntry2 cState1).currentMemorySize
        - sumSizes (memInsert "demo_6b" cEntry2 cState1).memoryCache
      = cState1.currentMemorySize - sumSizes cState1.memoryCache + cEntry1.size) ∧
    mapGet "demo_6b" (mapDelete "demo_6b" cState1.memoryCache) = none := by
  constructor
  · exact (size_accounting_C3_amended "demo_6b" cEntry2 cState1 cEntry1).1 (by rfl)
  · exact (size_accounting_C3_amended "demo_6b" cEntry2 cState1 cEntry1).2
      (by show (cState1.memoryCache.map Prod.fst).Nodup; decide)

/-! ## Structural lemmas about `set` and `get` -/

theorem maybeEvict_entryFiles (s : CacheState) : (maybeEvict s).entryFiles = s.entryFiles := by
  unfold maybeEvict
  split
  · rfl
  · rfl

theorem maybeEvict_metaDocs (s : CacheState) : (maybeEvict s).metaDocs = s.metaDocs := by
  unfold maybeEvict
  split
  · rfl
  · rfl

theorem maybeEvict_mem_subset {s : CacheState} {p : String × CacheEntry}
    (hp : p ∈ (maybeEvict s).memoryCache) : p ∈ s.memoryCache := by
  unfold maybeEvict at hp
  by_cases h : s.currentMemorySize > maxMemorySize
  · rw [if_pos h] at hp
    exact evict_mem_subset hp
  · rwa [if_neg h] at hp

/-- The entry serialized into `<ns>/<key>.json` by `set` (its `size` field is
still `0` at serialization time). -/
def setEntryFile (now : Int) (ns identifier : String) (data : Json) (ttlOpt : Option Int) :
    CacheEntry :=
  { data := data, timestamp := now, ttl := resolveTtl ttlOpt, size := 0,
    key := generateKey ns identifier }

/-- The entry inserted into the memory tier by `set` (the same object after
the `entry.size = size` assignment). -/
def setEntryMem (now : Int) (ns identifier : String) (data : Json) (ttlOpt : Option Int) :
    CacheEntry :=
  { setEntryFile now ns identifier data ttlOpt with
    size := entryContentSize (setEntryFile now ns identifier data ttlOpt) }

/-- `set` writes the entry file at the derived key. -/
theorem setExec_fileRead (now : Int) (ns identifier : String) (data : Json) (t : Option Int)
    (s : CacheState) :
    fileRead (setExec now ns identifier data t s) ns (generateKey ns identifier)
      = some (setEntryFile now ns identifier data t) := by
  show mapGet (ns, generateKey ns identifier)
    (setExec now ns identifier data t s).entryFiles = _
  simp only [setExec]
  rw [maybeEvict_entryFiles]
  exact mapGet_mapSet_self _ _ _

/-- `set` does not touch entry files of any other `(namespace, key)` pair. -/
theorem setExec_fileRead_ne (now : Int) (ns identifier : String) (data : Json) (t : Option Int)
    (s : CacheState) (ns1 k1 : String) (h : (ns1, k1) ≠ (ns, generateKey ns identifier)) :
    fileRead (setExec now ns identifier data t s) ns1 k1 = fileRead s ns1 k1 := by
  show mapGet (ns1, k1) (setExec now ns identifier data t s).entryFiles = _
  simp only [setExec]
  rw [maybeEvict_entryFiles]
  exact mapGet_mapSet_ne _ _ h

/-- Whatever survives in the memory tier after `set` comes from the
insert's result. -/
theorem setExec_mem_subset (now : Int) (ns identifier : String) (data : Json) (t : Option Int)
    (s : CacheState) {p : String × CacheEntry}
    (hp : p ∈ (setExec now ns identifier data t s).memoryCache) :
    p ∈ mapSet (generateKey ns identifier) (setEntryMem now ns identifier data t)
      s.memoryCache := by
  simp only [setExec] at hp
  exact maybeEvict_mem_subset hp

/-- If the key just written is still resident after `set`, its entry is the
one `set` inserted. -/
theorem setExec_mem_lookup (now : Int) (ns identifier : String) (data : Json) (t : Option Int)
    {s : CacheState} (hnd : nodupKeys s.memoryCache) {e : CacheEntry}
    (h : mapGet (generateKey ns identifier)
      (setExec now ns identifier data t s).memoryCache = some e) :
    e = setEntryMem now ns identifier data t := by
  have hmem := setExec_mem_subset now ns identifier data t s (mapGet_some_mem h)
  have hnd2 : nodupKeys (mapSet (generateKey ns identifier)
      (setEntryMem now ns identifier data t) s.memoryCache) :=
    nodupKeys_mapSet _ _ hnd
  have h2 := mapGet_of_mem_nodup hnd2 hmem
  rw [mapGet_mapSet_self] at h2
  injection h2 with h3
  exact h3.symm

/-! ## Claim C7: round trip -/

theorem isExpired_at_creation (now : Int) : isExpired now now 86400000 = false := by
  simp only [isExpired, sub_self, decide_eq_false_iff_not, not_lt]
  norm_num

/-- Claim C7: for every JSON-representable acyclic payload (the whole `Json`
domain), `set(ns, id, data)` immediately followed by `get(ns, id)` returns a
value deep-equal (structurally equal) to `data`, from every reachable
starting state. -/
theorem round_trip_C7 : ∀ (ops : List CacheOp) (now : Int) (ns identifier : String)
    (data : Json),
    (getExec now ns identifier false (setExec now ns identifier data none (execOps ops))).2
      = some data := by
  intro ops now ns identifier data
  obtain ⟨hnd, -, -⟩ := execOps_memInv ops
  have hfile := setExec_fileRead now ns identifier data none (execOps ops)
  cases hm : mapGet (generateKey ns identifier)
      (setExec now ns identifier data none (execOps ops)).memoryCache with
  | some e =>
      have he := setExec_mem_lookup now ns identifier data none hnd hm
      subst he
      simp [getExec, hm, setEntryMem, setEntryFile, resolveTtl, isExpired_at_creation]
  | none =>
      simp [getExec, hm, getFromFile, hfile, setEntryFile, resolveTtl, isExpired_at_creation]

/-! ## Claim C6: expiration is monotone and pure -/

theorem resolveTtl_some_ne (d : Int) (hd : d ≠ 0) : resolveTtl (some d) = d := by
  simp [resolveTtl, hd]

theorem isExpired_false_of_le {now t0 d : Int} (h : now ≤ t0 + d) :
    isExpired now t0 d = false := by
  simp only [isExpired, decide_eq_false_iff_not, not_lt]
  omega

theorem isExpired_true_of_lt {now t0 d : Int} (h : t0 + d < now) :
    isExpired now t0 d = true := by
  simp only [isExpired, decide_eq_true_eq]
  omega

/-- Claim C6: expiration is the pure comparison `now - timestamp > ttl`,
checked by the one shared `isExpired` in both tiers; after a `set` at time
`t0` with ttl `d > 0` from any reachable state, `get` without
`acceptExpired` returns the cached value at every query time in
`[t0, t0 + d]` and absent at every query time strictly past `t0 + d`. -/
theorem expiration_C6 : ∀ (ops : List CacheOp) (ns identifier : String) (data : Json)
    (t0 d now : Int), 0 < d →
    (∀ ts ttl : Int, isExpired now ts ttl = decide (ttl < now - ts)) ∧
    (t0 ≤ now → now ≤ t0 + d →
      (getExec now ns identifier false
        (setExec t0 ns identifier data (some d) (execOps ops))).2 = some data) ∧
    (t0 + d < now →
      (getExec now ns identifier false
        (setExec t0 ns identifier data (some d) (execOps ops))).2 = none) := by
  intro ops ns identifier data t0 d now hd
  obtain ⟨hnd, -, -⟩ := execOps_memInv ops
  have httl : resolveTtl (some d) = d := resolveTtl_some_ne d hd.ne'
  have hfile := setExec_fileRead t0 ns identifier data (some d) (execOps ops)
  refine ⟨fun ts ttl => rfl, ?_, ?_⟩
  · intro h1 h2
    have hfresh : isExpired now t0 d = false := isExpired_false_of_le h2
    cases hm : mapGet (generateKey ns identifier)
        (setExec t0 ns identifier data (some d) (execOps ops)).memoryCache with
    | some e =>
        have he := setExec_mem_lookup t0 ns identifier data (some d) hnd hm
        subst he
        simp [getExec, hm, setEntryMem, setEntryFile, httl, hfresh]
    | none =>
        simp [getExec, hm, getFromFile, hfile, setEntryFile, httl, hfresh]
  · intro h1
    have hexp : isExpired now t0 d = true := isExpired_true_of_lt h1
    have hfile2 : mapGet (ns, generateKey ns identifier)
        (setExec t0 ns identifier data (some d) (execOps ops)).entryFiles
        = some (setEntryFile t0 ns identifier data (some d)) := hfile
    cases hm : mapGet (generateKey ns identifier)
        (setExec t0 ns identifier data (some d) (execOps ops)).memoryCache with
    | some e =>
        have he := setExec_mem_lookup t0 ns identifier data (some d) hnd hm
        subst he
        simp [getExec, hm, getFromFile, fileRead, hfile2, setEntryMem, setEntryFile, httl,
          hexp]
    | none =>
        simp [getExec, hm, getFromFile, hfile, setEntryFile, httl, hexp]

/-- Witness for claim C6 at `ttl = 1000`: a hit at query time 500 and a miss
at query time 2000. -/
theorem expiration_C6_witness :
    (getExec 500 "demo" "k" false (setExec 0 "demo" "k" cPayload (some 1000) (execOps []))).2
      = some cPayload ∧
    (getExec 2000 "demo" "k" false (setExec 0 "demo" "k" cPayload (some 1000) (execOps []))).2
      = none :=
  ⟨(expiration_C6 [] "demo" "k" cPayload 0 1000 500 (by norm_num)).2.1 (by norm_num)
      (by norm_num),
   (expiration_C6 [] "demo" "k" cPayload 0 1000 2000 (by norm_num)).2.2 (by norm_num)⟩

/-! ## Claim C5: `get` on a file-tier-expired entry -/

/-- The derived key of the concrete C5 scenario. -/
def c5Key : String := generateKey "grind75" "q"

/-- A file-tier entry that is expired at query time 100. -/
def c5Entry : CacheEntry :=
  { data := Json.num 7, timestamp := 0, ttl := 10, size := 0, key := c5Key }

/-- The metadata record the namespace document holds for that entry. -/
def c5Meta : CacheMetadata :=
  { key := c5Key, timestamp := 0, ttl := 10, size := 99, fingerprint := "ab", accessed := 0 }

/-- A state whose memory tier lacks the key while the file tier holds the
expired entry and its metadata record. -/
def c5State : CacheState :=
  { memoryCache := [], currentMemorySize := 0,
    entryFiles := [(("grind75", c5Key), c5Entry)],
    metaDocs := [("grind75", MetaDoc.good [(c5Key, c5Meta)])] }

/-- Claim C5 as stated is false: `get` on an entry absent from memory but
expired in the file tier unlinks the entry file and returns absent, yet the
metadata record survives in the namespace document (the expired branch of
`get` never touches metadata). -/
theorem get_expired_file_C5_counterexample :
    (getExec 100 "grind75" "q" false c5State).2 = none ∧
    fileRead (getExec 100 "grind75" "q" false c5State).1 "grind75" c5Key = none ∧
    loadMetadata (getExec 100 "grind75" "q" false c5State).1 "grind75" = [(c5Key, c5Meta)] :=
  ⟨rfl, rfl, rfl⟩

/-- Claim C5 amended: such a `get` deletes the entry's file and returns
absent, but leaves the metadata document (and the rest of the state)
unchanged; the stale record lingers until a later `set`, `invalidate` or
`cleanup`. -/
theorem get_expired_file_C5_amended (now : Int) (ns identifier : String) (s : CacheState)
    (fe : CacheEntry)
    (hmem : mapGet (generateKey ns identifier) s.memoryCache = none)
    (hfile : fileRead s ns (generateKey ns identifier) = some fe)
    (hexp : isExpired now fe.timestamp fe.ttl = true) :
    getExec now ns identifier false s
      = ({ s with entryFiles := fileDelete ns (generateKey ns identifier) s.entryFiles },
         none) := by
  have hfile2 : mapGet (ns, generateKey ns identifier) s.entryFiles = some fe := hfile
  simp [getExec, hmem, getFromFile, fileRead, hfile2, hexp, fileDelete]

/-- Witness for the amended claim C5 at the concrete scenario state. -/
theorem get_expired_file_C5_amended_witness :
    getExec 100 "grind75" "q" false c5State
      = ({ c5State with entryFiles := fileDelete "grind75" c5Key c5State.entryFiles },
         none) :=
  get_expired_file_C5_amended 100 "grind75" "q" c5State c5Entry rfl rfl rfl

/-! ## Claim C9: metadata self-healing -/

theorem loadMetadata_congr {s1 s2 : CacheState} (ns : String)
    (h : s1.metaDocs = s2.metaDocs) : loadMetadata s1 ns = loadMetadata s2 ns := by
  unfold loadMetadata
  rw [h]

/-- The metadata record `set` writes for a call. -/
def setMetaRecord (now : Int) (ns identifier : String) (data : Json) (ttlOpt : Option Int) :
    CacheMetadata :=
  { key := generateKey ns identifier, timestamp := now, ttl := resolveTtl ttlOpt,
    size := entryContentSize (setEntryFile now ns identifier data ttlOpt),
    fingerprint := generateFingerprint data, accessed := now }

/-- A namespace's metadata document is bad when it is missing from disk or
fails to parse. -/
def badDoc (s : CacheState) (ns : String) : Prop :=
  mapGet ns s.metaDocs = none ∨ mapGet ns s.metaDocs = some MetaDoc.corrupt

theorem loadMetadata_of_badDoc {s : CacheState} {ns : String} (h : badDoc s ns) :
    loadMetadata s ns = [] := by
  unfold loadMetadata
  rcases h with h | h
  · rw [h]
  · rw [h]

theorem getFromFile_metaDocs (now : Int) (ns key : String) (ae : Bool) (s : CacheState)
    (hbad : badDoc s ns) : (getFromFile now ns key ae s).1.metaDocs = s.metaDocs := by
  cases hf : fileRead s ns key with
  | none => simp [getFromFile, hf]
  | some fe =>
      by_cases hfresh : (!isExpired now fe.timestamp fe.ttl || ae) = true
      · have hdocs :
            (maybeEvict (memInsert key { fe with size := entryContentSize fe } s)).metaDocs
              = s.metaDocs := maybeEvict_metaDocs _
        have hld : loadMetadata
            (maybeEvict (memInsert key { fe with size := entryContentSize fe } s)) ns = [] := by
          rw [loadMetadata_congr ns hdocs]
          exact loadMetadata_of_badDoc hbad
        simp [getFromFile, hf, hfresh, hld, mapGet, hdocs]
      · rw [Bool.not_eq_true] at hfresh
        simp [getFromFile, hf, hfresh]

/-- Claim C9: a missing or unparsable `metadata.json` is loaded as the empty
record mapping, and `get`, `set`, `status` and `cleanup` each proceed as if
the namespace had zero prior metadata records: `status` reports zero
entries, `get` leaves the documents untouched (no `accessed` rewrite), `set`
rebuilds the document containing exactly its own new record, and the
cleanup pass over the namespace is a no-op. -/
theorem metadata_selfheal_C9 (s : CacheState) (ns identifier : String) (now : Int)
    (data : Json) (t : Option Int) (ae : Bool) (hbad : badDoc s ns) :
    loadMetadata s ns = [] ∧
    (namespaceStatus now s ns).totalEntries = 0 ∧
    (namespaceStatus now s ns).validEntries = 0 ∧
    (getExec now ns identifier ae s).1.metaDocs = s.metaDocs ∧
    loadMetadata (setExec now ns identifier data t s) ns
      = [(generateKey ns identifier, setMetaRecord now ns identifier data t)] ∧
    cleanupNs now s ns = s := by
  have hld := loadMetadata_of_badDoc hbad
  refine ⟨hld, ?_, ?_, ?_, ?_, ?_⟩
  · simp [namespaceStatus, hld]
  · simp [namespaceStatus, hld]
  · cases hm : mapGet (generateKey ns identifier) s.memoryCache with
    | none =>
        simp only [getExec, hm]
        exact getFromFile_metaDocs now ns _ ae s hbad
    | some e =>
        by_cases hfresh : (!isExpired now e.timestamp e.ttl || ae) = true
        · simp [getExec, hm, hfresh]
        · rw [Bool.not_eq_true] at hfresh
          simp only [getExec, hm, hfresh, Bool.false_eq_true, if_false]
          exact getFromFile_metaDocs now ns _ ae _ hbad
  · have hdocs1 : (setExec now ns identifier data t s).metaDocs
        = mapSet ns (MetaDoc.good (mapSet (generateKey ns identifier)
            (setMetaRecord now ns identifier data t) (loadMetadata s ns))) s.metaDocs := by
      simp only [setExec]
      rw [maybeEvict_metaDocs]
      rfl
    unfold loadMetadata
    rw [hdocs1, hld, mapGet_mapSet_self]
    rfl
  · unfold cleanupNs
    rw [hld]
    simp [cleanupScan]

/-- A concrete state whose only metadata document is unparsable. -/
def c9State : CacheState :=
  { memoryCache := [], currentMemorySize := 0, entryFiles := [],
    metaDocs := [("grind75", MetaDoc.corrupt)] }

/-- Witness for claim C9 at the concrete corrupt-document state. -/
theorem metadata_selfheal_C9_witness :
    loadMetadata c9State "grind75" = [] ∧
    (namespaceStatus 0 c9State "grind75").totalEntries = 0 ∧
    (namespaceStatus 0 c9State "grind75").validEntries = 0 ∧
    (getExec 0 "grind75" "q" false c9State).1.metaDocs = c9State.metaDocs ∧
    loadMetadata (setExec 0 "grind75" "q" (Json.num 7) none c9State) "grind75"
      = [(generateKey "grind75" "q", setMetaRecord 0 "grind75" "q" (Json.num 7) none)] ∧
    cleanupNs 0 c9State "grind75" = c9State :=
  metadata_selfheal_C9 c9State "grind75" "q" 0 (Json.num 7) none false (Or.inr rfl)

/-! ## Claim C10: falsy ttl defaulting -/

/-- Claim C10 as stated is false in its consequence: `options.ttl || default`
only rescues falsy values, so `set` with the negative ttl `-1` stores the
entry with ttl `-1`, which is already expired at its own creation instant —
an immediate `get` misses. -/
theorem default_ttl_C10_counterexample :
    fileRead (setExec 0 "demo" "k" cPayload (some (-1)) initialState) "demo"
      (generateKey "demo" "k") = some (setEntryFile 0 "demo" "k" cPayload (some (-1))) ∧
    isExpired 0 (setEntryFile 0 "demo" "k" cPayload (some (-1))).timestamp
      (setEntryFile 0 "demo" "k" cPayload (some (-1))).ttl = true ∧
    (getExec 0 "demo" "k" false (setExec 0 "demo" "k" cPayload (some (-1)) initialState)).2
      = none := by
  refine ⟨setExec_fileRead 0 "demo" "k" cPayload (some (-1)) initialState, ?_, ?_⟩
  · rfl
  · rfl

/-- Claim C10 amended: a falsy `ttl` (omitted or `0`) is replaced by the
24-hour default, and an entry created with the default or any positive ttl
is not expired at creation time; but a negative `options.ttl` is truthy,
is stored as given, and yields an entry already expired at creation. -/
theorem default_ttl_C10_amended (now : Int) (ns identifier : String) (data : Json)
    (s : CacheState) :
    (fileRead (setExec now ns identifier data none s) ns (generateKey ns identifier)
       = some (setEntryFile now ns identifier data none) ∧
     (setEntryFile now ns identifier data none).ttl = 86400000) ∧
    (fileRead (setExec now ns identifier data (some 0) s) ns (generateKey ns identifier)
       = some (setEntryFile now ns identifier data (some 0)) ∧
     (setEntryFile now ns identifier data (some 0)).ttl = 86400000) ∧
    (∀ d : Int, d ≠ 0 → (setEntryFile now ns identifier data (some d)).ttl = d) ∧
    (∀ d : Int, 0 < d →
      isExpired now now (setEntryFile now ns identifier data (some d)).ttl = false) ∧
    isExpired now now (setEntryFile now ns identifier data none).ttl = false := by
  refine ⟨⟨setExec_fileRead now ns identifier data none s, rfl⟩,
          ⟨setExec_fileRead now ns identifier data (some 0) s, by simp [setEntryFile, resolveTtl]⟩,
          ?_, ?_, ?_⟩
  · intro d hd
    simp [setEntryFile, resolveTtl, hd]
  · intro d hd
    have : (setEntryFile now ns identifier data (some d)).ttl = d := by
      simp [setEntryFile, resolveTtl, hd.ne']
    rw [this]
    exact isExpired_false_of_le (by omega)
  · show isExpired now now (resolveTtl none) = false
    exact isExpired_at_creation now

/-- Witness for the amended claim C10: ttl `-1` is stored as `-1`, ttl
`1000` yields an entry fresh at creation, omitted ttl yields the 24-hour
default. -/
theorem default_ttl_C10_amended_witness :
    (setEntryFile 0 "demo" "k" cPayload (some (-1))).ttl = -1 ∧
    isExpired 0 0 (setEntryFile 0 "demo" "k" cPayload (some 1000)).ttl = false ∧
    (setEntryFile 0 "demo" "k" cPayload none).ttl = 86400000 :=
  ⟨(default_ttl_C10_amended 0 "demo" "k" cPayload initialState).2.2.1 (-1) (by norm_num),
   (default_ttl_C10_amended 0 "demo" "k" cPayload initialState).2.2.2.1 1000 (by norm_num),
   (default_ttl_C10_amended 0 "demo" "k" cPayload initialState).1.2⟩

/-! ## Claim C2: namespace invalidation -/

/-- Claim C2 is violated by the code (code bug): the purge loop
`for (const [key] of Array.from(this.memoryCache.keys()))` destructures each
key string, so `key` is the key's first character; no first character starts
with the multi-character namespace `grind75`, so nothing is deleted from the
memory tier.  After `invalidate("grind75")` the memory tier is unchanged and
a subsequent `get` for the supposedly invalidated identifier is a memory-tier
hit returning the old payload (the file tier and metadata document are wiped
as specified; only the memory purge is broken). -/
theorem invalidate_namespace_C2_code_bug :
    (invalidateExec "grind75" none
        (execOps [CacheOp.setOp 0 "grind75" "q1" cPayload none])).memoryCache
      = (execOps [CacheOp.setOp 0 "grind75" "q1" cPayload none]).memoryCache ∧
    (getExec 0 "grind75" "q1" false (invalidateExec "grind75" none
        (execOps [CacheOp.setOp 0 "grind75" "q1" cPayload none]))).2 = some cPayload ∧
    fileRead (invalidateExec "grind75" none
        (execOps [CacheOp.setOp 0 "grind75" "q1" cPayload none])) "grind75"
        (generateKey "grind75" "q1") = none ∧
    loadMetadata (invalidateExec "grind75" none
        (execOps [CacheOp.setOp 0 "grind75" "q1" cPayload none])) "grind75" = [] ∧
    strHead (generateKey "grind75" "q1") = "g" ∧
    strStartsWith "g" "grind75" = false :=
  ⟨rfl, rfl, rfl, rfl, rfl, rfl⟩

/-! ## Claim C1: cycle safety of `set` -/

/-- A heap holding one object that contains itself as a descendant
(`const a = {}; a.self = a`). -/
def c1Heap : JHeap := [JObj.jobj [("self", JVal.vref 0)]]

/-- Claim C1 is violated by the code (code bug): on a self-referential
payload, `safeStringify` does terminate with the circular marker and the
fingerprint is the deterministic digest of that marker string — but the very
next statement of `set`, `const content = JSON.stringify(entry, null, 2)`,
sits before the `try` block and throws a `TypeError` on the cycle, so `set`
raises to its caller.  On an acyclic payload the same serialization
returns a string and `set` does not throw. -/
theorem set_cycle_C1_code_bug :
    safeStringifyH c1Heap (c1Heap.length + 1) [] (JVal.vref 0)
      = "\x7b\"self\":\"[Circular]\"\x7d" ∧
    generateFingerprintH c1Heap (JVal.vref 0)
      = md5hex ("\x7b\"self\":\"[Circular]\"\x7d") ∧
    setSerializeEntry c1Heap (JVal.vref 0) 0 86400000 (generateKey "demo" "k") = none ∧
    setThrowsOn c1Heap (JVal.vref 0) 0 86400000 (generateKey "demo" "k") = true ∧
    setThrowsOn [JObj.jobj [("value", JVal.vnum 42)]] (JVal.vref 0) 0 86400000
      (generateKey "demo" "k") = false :=
  ⟨rfl, rfl, rfl, rfl, rfl⟩

/-! ## Claim C8: the cleanup sweep -/

/-- Frame conditions of the cleanup loop over one namespace's records: it
never touches the memory tier, the metadata documents, or entry files of
other namespaces, and it keeps the file map's keys unique. -/
theorem cleanupScan_frame (now : Int) (ns : String) :
    ∀ (md : List (String × CacheMetadata)) (s : CacheState)
      (upd : List (String × CacheMetadata)) (cnt : Nat),
    (cleanupScan now ns md s upd cnt).1.metaDocs = s.metaDocs ∧
    (cleanupScan now ns md s upd cnt).1.memoryCache = s.memoryCache ∧
    (cleanupScan now ns md s upd cnt).1.currentMemorySize = s.currentMemorySize ∧
    (∀ ns1 k1, ns1 ≠ ns →
      fileRead (cleanupScan now ns md s upd cnt).1 ns1 k1 = fileRead s ns1 k1) ∧
    (nodupKeys s.entryFiles → nodupKeys (cleanupScan now ns md s upd cnt).1.entryFiles)
  | [], s, upd, cnt => ⟨rfl, rfl, rfl, fun _ _ _ => rfl, fun h => h⟩
  | (k, e) :: rest, s, upd, cnt => by
      by_cases hexp : isExpired now e.timestamp e.ttl = true
      · have hgo : cleanupScan now ns ((k, e) :: rest) s upd cnt
            = cleanupScan now ns rest
                { s with entryFiles := fileDelete ns k s.entryFiles } upd (cnt + 1) := by
          simp only [cleanupScan, hexp, if_true]
        rw [hgo]
        obtain ⟨i1, i2, i3, i4, i5⟩ := cleanupScan_frame now ns rest
          { s with entryFiles := fileDelete ns k s.entryFiles } upd (cnt + 1)
        refine ⟨i1, i2, i3, ?_, ?_⟩
        · intro ns1 k1 hne
          rw [i4 ns1 k1 hne]
          show mapGet (ns1, k1) (mapDelete (ns, k) s.entryFiles) = mapGet (ns1, k1) s.entryFiles
          exact mapGet_mapDelete_ne _ (by simp [hne])
        · intro hnf
          exact i5 (nodupKeys_mapDelete _ hnf)
      · rw [Bool.not_eq_true] at hexp
        have hgo : cleanupScan now ns ((k, e) :: rest) s upd cnt
            = cleanupScan now ns rest s (upd ++ [(k, e)]) cnt := by
          simp only [cleanupScan, hexp, Bool.false_eq_true, if_false]
        rw [hgo]
        exact cleanupScan_frame now ns rest s (upd ++ [(k, e)]) cnt

/-- Content of the cleanup loop over one namespace's records: the rebuilt
document collects exactly the valid records in order, the removal counter
counts the expired ones, every expired record's backing file is gone
afterwards, and a key all of whose records are valid keeps its file. -/
theorem cleanupScan_main (now : Int) (ns : String) :
    ∀ (md : List (String × CacheMetadata)) (s : CacheState)
      (upd : List (String × CacheMetadata)) (cnt : Nat),
    nodupKeys s.entryFiles → nodupKeys md →
    (cleanupScan now ns md s upd cnt).2.1
      = upd ++ md.filter (fun p => !isExpired now p.2.timestamp p.2.ttl) ∧
    (cleanupScan now ns md s upd cnt).2.2
      = cnt + (md.filter (fun p => isExpired now p.2.timestamp p.2.ttl)).length ∧
    (∀ k1 m1, (k1, m1) ∈ md → isExpired now m1.timestamp m1.ttl = true →
      fileRead (cleanupScan now ns md s upd cnt).1 ns k1 = none) ∧
    (∀ k1, (∀ m1, (k1, m1) ∈ md → isExpired now m1.timestamp m1.ttl = false) →
      fileRead (cleanupScan now ns md s upd cnt).1 ns k1 = fileRead s ns k1)
  | [], s, upd, cnt, _, _ => by
      refine ⟨by simp [cleanupScan], by simp [cleanupScan], ?_, fun k1 _ => rfl⟩
      intro k1 m1 hm
      simp at hm
  | (k, e) :: rest, s, upd, cnt, hnf, hmd => by
      have hknotin : k ∉ rest.map Prod.fst := (List.nodup_cons.mp hmd).1
      have hrest : nodupKeys rest := nodupKeys_cons hmd
      by_cases hexp : isExpired now e.timestamp e.ttl = true
      · have hgo : cleanupScan now ns ((k, e) :: rest) s upd cnt
            = cleanupScan now ns rest
                { s with entryFiles := fileDelete ns k s.entryFiles } upd (cnt + 1) := by
          simp only [cleanupScan, hexp, if_true]
        have hnf2 : nodupKeys ({ s with entryFiles := fileDelete ns k s.entryFiles } :
            CacheState).entryFiles := nodupKeys_mapDelete _ hnf
        obtain ⟨i1, i2, i3, i4⟩ := cleanupScan_main now ns rest
          { s with entryFiles := fileDelete ns k s.entryFiles } upd (cnt + 1) hnf2 hrest
        rw [hgo]
        refine ⟨by rw [i1]; simp [hexp], by rw [i2]; simp [hexp]; omega, ?_, ?_⟩
        · intro k1 m1 hm hx
          rcases List.mem_cons.mp hm with heq | htail
          · injection heq with h1 h2
            subst h1
            have hvac : ∀ m2, (k1, m2) ∈ rest → isExpired now m2.timestamp m2.ttl = false := by
              intro m2 hm2
              exact absurd (List.mem_map.mpr ⟨(k1, m2), hm2, rfl⟩) hknotin
            rw [i4 k1 hvac]
            show mapGet (ns, k1) (mapDelete (ns, k1) s.entryFiles) = none
            exact mapGet_mapDelete_self _ hnf
          · exact i3 k1 m1 htail hx
        · intro k1 hall
          have hk1 : k1 ≠ k := by
            intro hkk
            subst hkk
            exact absurd (hall e (List.mem_cons_self _ _)) (by simp [hexp])
          have hrest2 : ∀ m1, (k1, m1) ∈ rest → isExpired now m1.timestamp m1.ttl = false :=
            fun m1 hm1 => hall m1 (List.mem_cons_of_mem _ hm1)
          rw [i4 k1 hrest2]
          show mapGet (ns, k1) (mapDelete (ns, k) s.entryFiles) = mapGet (ns, k1) s.entryFiles
          exact mapGet_mapDelete_ne _ (by simp [hk1])
      · rw [Bool.not_eq_true] at hexp
        have hgo : cleanupScan now ns ((k, e) :: rest) s upd cnt
            = cleanupScan now ns rest s (upd ++ [(k, e)]) cnt := by
          simp only [cleanupScan, hexp, Bool.false_eq_true, if_false]
        obtain ⟨i1, i2, i3, i4⟩ := cleanupScan_main now ns rest s (upd ++ [(k, e)]) cnt hnf hrest
        rw [hgo]
        refine ⟨by rw [i1]; simp [hexp], by rw [i2]; simp [hexp], ?_, ?_⟩
        · intro k1 m1 hm hx
          rcases List.mem_cons.mp hm with heq | htail
          · injection heq with h1 h2
            subst h2
            rw [hexp] at hx
            exact absurd hx (by simp)
          · exact i3 k1 m1 htail hx
        · intro k1 hall
          exact i4 k1 (fun m1 hm1 => hall m1 (List.mem_cons_of_mem _ hm1))

theorem mem_unique_of_nodupKeys {κ α : Type} [DecidableEq κ] {l : List (κ × α)} {k : κ}
    {a b : α} (hnd : nodupKeys l) (ha : (k, a) ∈ l) (hb : (k, b) ∈ l) : a = b := by
  have h1 := mapGet_of_mem_nodup hnd ha
  have h2 := mapGet_of_mem_nodup hnd hb
  rw [h1] at h2
  exact Option.some_injective _ h2

theorem loadMetadata_eq_of_mapGet {s1 s2 : CacheState} {ns : String}
    (h : mapGet ns s1.metaDocs = mapGet ns s2.metaDocs) :
    loadMetadata s1 ns = loadMetadata s2 ns := by
  unfold loadMetadata
  rw [h]

/-- Frame conditions of one namespace's cleanup pass: other namespaces'
metadata documents and entry files are untouched, and file keys stay
unique. -/
theorem cleanupNs_frame (now : Int) (s : CacheState) (ns : String) :
    (∀ ns1, ns1 ≠ ns → mapGet ns1 (cleanupNs now s ns).metaDocs = mapGet ns1 s.metaDocs) ∧
    (∀ ns1 k1, ns1 ≠ ns → fileRead (cleanupNs now s ns) ns1 k1 = fileRead s ns1 k1) ∧
    (nodupKeys s.entryFiles → nodupKeys (cleanupNs now s ns).entryFiles) := by
  obtain ⟨i1, i2, i3, i4, i5⟩ :=
    cleanupScan_frame now ns (loadMetadata s ns) s [] 0
  unfold cleanupNs
  by_cases hpos : (cleanupScan now ns (loadMetadata s ns) s [] 0).2.2 > 0
  · rw [if_pos hpos]
    refine ⟨?_, ?_, ?_⟩
    · intro ns1 hne
      show mapGet ns1 (mapSet ns _ (cleanupScan now ns (loadMetadata s ns) s [] 0).1.metaDocs)
        = mapGet ns1 s.metaDocs
      rw [mapGet_mapSet_ne _ _ hne, i1]
    · intro ns1 k1 hne
      exact i4 ns1 k1 hne
    · intro hnf
      exact i5 hnf
  · rw [if_neg hpos]
    exact ⟨fun ns1 _ => by rw [i1], i4, i5⟩

/-- One namespace's cleanup pass, on a parsed document with unique keys:
afterwards the namespace's loadable metadata is exactly the valid records,
every expired record's file is gone, and every valid record's file is
untouched. -/
theorem cleanupNs_main (now : Int) (s : CacheState) (ns : String)
    (m : List (String × CacheMetadata))
    (hdoc : mapGet ns s.metaDocs = some (MetaDoc.good m))
    (hnfiles : nodupKeys s.entryFiles) (hm : nodupKeys m) :
    loadMetadata (cleanupNs now s ns) ns
      = m.filter (fun p => !isExpired now p.2.timestamp p.2.ttl) ∧
    (∀ k1 m1, (k1, m1) ∈ m → isExpired now m1.timestamp m1.ttl = true →
      fileRead (cleanupNs now s ns) ns k1 = none) ∧
    (∀ k1 m1, (k1, m1) ∈ m → isExpired now m1.timestamp m1.ttl = false →
      fileRead (cleanupNs now s ns) ns k1 = fileRead s ns k1) := by
  have hld : loadMetadata s ns = m := by
    unfold loadMetadata
    rw [hdoc]
  obtain ⟨f1, f2, f3, f4, f5⟩ := cleanupScan_frame now ns m s [] 0
  obtain ⟨i1, i2, i3, i4⟩ := cleanupScan_main now ns m s [] 0 hnfiles hm
  have hvalid : ∀ k1 m1, (k1, m1) ∈ m → isExpired now m1.timestamp m1.ttl = false →
      fileRead (cleanupScan now ns m s [] 0).1 ns k1 = fileRead s ns k1 := by
    intro k1 m1 hm1 hx
    refine i4 k1 ?_
    intro m2 hm2
    rw [mem_unique_of_nodupKeys hm hm2 hm1]
    exact hx
  unfold cleanupNs
  rw [hld]
  by_cases hpos : (cleanupScan now ns m s [] 0).2.2 > 0
  · rw [if_pos hpos]
    refine ⟨?_, i3, hvalid⟩
    show (match mapGet ns (mapSet ns
        (MetaDoc.good (cleanupScan now ns m s [] 0).2.1)
        (cleanupScan now ns m s [] 0).1.metaDocs) with
      | some (MetaDoc.good m1) => m1
      | _ => ([] : List (String × CacheMetadata))) = _
    rw [mapGet_mapSet_self]
    rw [i1]
    simp
  · rw [if_neg hpos]
    have hcnt : (cleanupScan now ns m s [] 0).2.2 = 0 := by omega
    rw [i2] at hcnt
    simp only [Nat.zero_add] at hcnt
    have hnone : ∀ p ∈ m, isExpired now p.2.timestamp p.2.ttl = false := by
      intro p hp
      by_contra hx
      rw [Bool.not_eq_false] at hx
      have hpf : p ∈ m.filter (fun p => isExpired now p.2.timestamp p.2.ttl) :=
        List.mem_filter.mpr ⟨hp, hx⟩
      rw [List.length_eq_zero.mp hcnt] at hpf
      simp at hpf
    refine ⟨?_, i3, hvalid⟩
    have hfeq : m.filter (fun p => !isExpired now p.2.timestamp p.2.ttl) = m :=
      List.filter_eq_self.mpr (fun p hp => by rw [hnone p hp]; rfl)
    rw [hfeq]
    calc loadMetadata (cleanupScan now ns m s [] 0).1 ns
        = loadMetadata s ns := loadMetadata_eq_of_mapGet (by rw [f1])
      _ = m := hld

/-- Claim C8: for every known namespace whose metadata document parses to a
record mapping (with the unique keys a JSON object guarantees), `cleanup()`
partitions the records by the same expiration rule as `get`, deletes every
expired record's backing file, leaves every valid record's file untouched,
and afterwards the namespace's loadable metadata is exactly the valid
records. -/
theorem cleanup_C8 (now : Int) (s : CacheState) (ns : String)
    (m : List (String × CacheMetadata)) (hns : ns ∈ knownNamespaces)
    (hdoc : mapGet ns s.metaDocs = some (MetaDoc.good m))
    (hnfiles : nodupKeys s.entryFiles) (hm : nodupKeys m) :
    loadMetadata (cleanupExec now s) ns
      = m.filter (fun p => !isExpired now p.2.timestamp p.2.ttl) ∧
    (∀ k1 m1, (k1, m1) ∈ m → isExpired now m1.timestamp m1.ttl = true →
      fileRead (cleanupExec now s) ns k1 = none) ∧
    (∀ k1 m1, (k1, m1) ∈ m → isExpired now m1.timestamp m1.ttl = false →
      fileRead (cleanupExec now s) ns k1 = fileRead s ns k1) := by
  have hexec : cleanupExec now s
      = cleanupNs now (cleanupNs now (cleanupNs now s "grind75") "leetcode") "companies" := by
    unfold cleanupExec knownNamespaces
    rw [List.foldl_cons, List.foldl_cons, List.foldl_cons, List.foldl_nil]
  simp only [knownNamespaces, List.mem_cons, List.mem_singleton,
    List.not_mem_nil, or_false] at hns
  rw [hexec]
  rcases hns with rfl | rfl | rfl
  · obtain ⟨a1, a2, a3⟩ := cleanupNs_main now s "grind75" m hdoc hnfiles hm
    obtain ⟨b1, b2, -⟩ := cleanupNs_frame now (cleanupNs now s "grind75") "leetcode"
    obtain ⟨c1, c2, -⟩ := cleanupNs_frame now
      (cleanupNs now (cleanupNs now s "grind75") "leetcode") "companies"
    have hnel : ("grind75" : String) ≠ "leetcode" := by decide
    have hnec : ("grind75" : String) ≠ "companies" := by decide
    refine ⟨?_, ?_, ?_⟩
    · rw [loadMetadata_eq_of_mapGet (c1 "grind75" hnec),
        loadMetadata_eq_of_mapGet (b1 "grind75" hnel)]
      exact a1
    · intro k1 m1 hm1 hx
      rw [c2 "grind75" k1 hnec, b2 "grind75" k1 hnel]
      exact a2 k1 m1 hm1 hx
    · intro k1 m1 hm1 hx
      rw [c2 "grind75" k1 hnec, b2 "grind75" k1 hnel]
      exact a3 k1 m1 hm1 hx
  · obtain ⟨a1, a2, a3⟩ := cleanupNs_frame now s "grind75"
    have hneg : ("leetcode" : String) ≠ "grind75" := by decide
    have hnec : ("leetcode" : String) ≠ "companies" := by decide
    have hdocA : mapGet "leetcode" (cleanupNs now s "grind75").metaDocs
        = some (MetaDoc.good m) := by
      rw [a1 "leetcode" hneg]
      exact hdoc
    obtain ⟨b1, b2, b3⟩ := cleanupNs_main now (cleanupNs now s "grind75") "leetcode" m
      hdocA (a3 hnfiles) hm
    obtain ⟨c1, c2, -⟩ := cleanupNs_frame now
      (cleanupNs now (cleanupNs now s "grind75") "leetcode") "companies"
    refine ⟨?_, ?_, ?_⟩
    · rw [loadMetadata_eq_of_mapGet (c1 "leetcode" hnec)]
      exact b1
    · intro k1 m1 hm1 hx
      rw [c2 "leetcode" k1 hnec]
      exact b2 k1 m1 hm1 hx
    · intro k1 m1 hm1 hx
      rw [c2 "leetcode" k1 hnec, b3 k1 m1 hm1 hx]
      exact a2 "leetcode" k1 hneg
  · obtain ⟨a1, a2, a3⟩ := cleanupNs_frame now s "grind75"
    obtain ⟨b1, b2, b3⟩ := cleanupNs_frame now (cleanupNs now s "grind75") "leetcode"
    have hneg : ("companies" : String) ≠ "grind75" := by decide
    have hnel : ("companies" : String) ≠ "leetcode" := by decide
    have hdocB : mapGet "companies"
        (cleanupNs now (cleanupNs now s "grind75") "leetcode").metaDocs
        = some (MetaDoc.good m) := by
      rw [b1 "companies" hnel, a1 "companies" hneg]
      exact hdoc
    obtain ⟨c1, c2, c3⟩ := cleanupNs_main now
      (cleanupNs now (cleanupNs now s "grind75") "leetcode") "companies" m
      hdocB (b3 (a3 hnfiles)) hm
    refine ⟨c1, c2, ?_⟩
    intro k1 m1 hm1 hx
    rw [c3 k1 m1 hm1 hx, b2 "companies" k1 hnel]
    exact a2 "companies" k1 hneg

/-- Metadata records of the concrete cleanup scenario: two expired at query
time 100, one valid. -/
def c8m1 : CacheMetadata :=
  { key := "k1", timestamp := 0, ttl := 10, size := 5, fingerprint := "f1", accessed := 0 }

/-- Second expired record. -/
def c8m2 : CacheMetadata :=
  { key := "k2", timestamp := 0, ttl := 10, size := 5, fingerprint := "f2", accessed := 0 }

/-- The one record still valid at time 100. -/
def c8m3 : CacheMetadata :=
  { key := "k3", timestamp := 95, ttl := 10, size := 5, fingerprint := "f3", accessed := 95 }

/-- An entry file for key `k` of the cleanup scenario. -/
def c8Entry (k : String) (ts : Int) : CacheEntry :=
  { data := Json.num 1, timestamp := ts, ttl := 10, size := 0, key := k }

/-- The cleanup scenario state: three entries in `grind75`, two expired. -/
def c8State : CacheState :=
  { memoryCache := [], currentMemorySize := 0,
    entryFiles := [(("grind75", "k1"), c8Entry "k1" 0), (("grind75", "k2"), c8Entry "k2" 0),
                   (("grind75", "k3"), c8Entry "k3" 95)],
    metaDocs := [("grind75", MetaDoc.good [("k1", c8m1), ("k2", c8m2), ("k3", c8m3)])] }

/-- Witness for claim C8 at the three-entry scenario: the sweep deletes the
two expired entries' files and records and leaves the valid one intact. -/
theorem cleanup_C8_witness :
    loadMetadata (cleanupExec 100 c8State) "grind75" = [("k3", c8m3)] ∧
    fileRead (cleanupExec 100 c8State) "grind75" "k1" = none ∧
    fileRead (cleanupExec 100 c8State) "grind75" "k2" = none ∧
    fileRead (cleanupExec 100 c8State) "grind75" "k3" = fileRead c8State "grind75" "k3" := by
  have h := cleanup_C8 100 c8State "grind75" [("k1", c8m1), ("k2", c8m2), ("k3", c8m3)]
    (by decide) rfl (by show (c8State.entryFiles.map Prod.fst).Nodup; decide)
    (by show ((["k1", "k2", "k3"].map id).Nodup); decide)
  refine ⟨?_, ?_, ?_, ?_⟩
  · rw [h.1]
    rfl
  · exact h.2.1 "k1" c8m1 (by decide) (by decide)
  · exact h.2.1 "k2" c8m2 (by decide) (by decide)
  · exact h.2.2 "k3" c8m3 (by decide) (by decide)
